import Mathlib

/-!
Verification development for the binance-futures repository.

The development shallowly embeds the streaming state-reconstruction core of
the repository: the incremental order book (`OrderBookData.update` in
`future-orderbook.py` / `future-orderbook-spot.py`), the footprint
aggregator and its message handler (`OrderFlowTrader` in `footprint.py`),
the imbalance and support/resistance analytics, and the reconnect-delay
arithmetic.  Python dicts are embedded as insertion-ordered association
lists, float quantities as exact rationals, and millisecond timestamps as
naturals.
-/

namespace BinanceFutures

/-! ## Association lists (embedding of Python dicts)

Python dicts preserve insertion order: a write to an existing key updates
it in place, a write to a fresh key appends it at the end, and `del`
removes the entry.  `alook`, `aset` and `aerase` mirror exactly that. -/

def alook {α β : Type} [DecidableEq α] : List (α × β) → α → Option β
  | [], _ => none
  | e :: rest, k => if e.1 = k then some e.2 else alook rest k

def aset {α β : Type} [DecidableEq α] : List (α × β) → α → β → List (α × β)
  | [], k, v => [(k, v)]
  | e :: rest, k, v => if e.1 = k then (k, v) :: rest else e :: aset rest k v

def aerase {α β : Type} [DecidableEq α] : List (α × β) → α → List (α × β)
  | [], _ => []
  | e :: rest, k => if e.1 = k then rest else e :: aerase rest k

def akeys {α β : Type} (l : List (α × β)) : List α := l.map Prod.fst

section AListLemmas

variable {α β : Type} [DecidableEq α]

@[simp] theorem alook_nil (k : α) : alook ([] : List (α × β)) k = none := rfl

@[simp] theorem alook_cons (e : α × β) (l : List (α × β)) (k : α) :
    alook (e :: l) k = if e.1 = k then some e.2 else alook l k := rfl

theorem alook_aset_self (l : List (α × β)) (k : α) (v : β) :
    alook (aset l k v) k = some v := by
  induction l with
  | nil => simp [aset]
  | cons e rest ih =>
    by_cases h : e.1 = k <;> simp [aset, h, ih]

theorem alook_aset_ne (l : List (α × β)) (k k' : α) (v : β) (h : k ≠ k') :
    alook (aset l k v) k' = alook l k' := by
  induction l with
  | nil => simp [aset, alook, h]
  | cons e rest ih =>
    by_cases he : e.1 = k
    · simp [aset, he, alook, h]
    · simp [aset, he, alook, ih]

theorem mem_aset (l : List (α × β)) (k : α) (v : β) (x : α × β)
    (hx : x ∈ aset l k v) : x = (k, v) ∨ x ∈ l := by
  induction l with
  | nil =>
    simp only [aset, List.mem_singleton] at hx
    exact Or.inl hx
  | cons e rest ih =>
    by_cases he : e.1 = k
    · simp only [aset, he, if_pos rfl] at hx
      rcases List.mem_cons.mp hx with h | h
      · exact Or.inl h
      · exact Or.inr (List.mem_cons_of_mem _ h)
    · simp only [aset, if_neg he] at hx
      rcases List.mem_cons.mp hx with h | h
      · exact Or.inr (h ▸ List.mem_cons_self _ _)
      · rcases ih h with h' | h'
        · exact Or.inl h'
        · exact Or.inr (List.mem_cons_of_mem _ h')

theorem mem_aerase (l : List (α × β)) (k : α) (x : α × β)
    (hx : x ∈ aerase l k) : x ∈ l := by
  induction l with
  | nil => simp [aerase] at hx
  | cons e rest ih =>
    by_cases he : e.1 = k
    · simp only [aerase, if_pos he] at hx
      exact List.mem_cons_of_mem _ hx
    · simp only [aerase, if_neg he] at hx
      rcases List.mem_cons.mp hx with h | h
      · exact h ▸ List.mem_cons_self _ _
      · exact List.mem_cons_of_mem _ (ih h)

theorem alook_eq_none_of_not_mem_keys (l : List (α × β)) (k : α)
    (h : k ∉ akeys l) : alook l k = none := by
  induction l with
  | nil => rfl
  | cons e rest ih =>
    simp only [akeys, List.map_cons, List.mem_cons] at h
    push_neg at h
    simp [alook, Ne.symm h.1, ih (by simpa [akeys] using h.2)]

theorem aerase_of_nodup_keys (l : List (α × β)) (k : α)
    (hnd : (akeys l).Nodup) : alook (aerase l k) k = none := by
  induction l with
  | nil => rfl
  | cons e rest ih =>
    simp only [akeys, List.map_cons, List.nodup_cons] at hnd
    by_cases he : e.1 = k
    · simp only [aerase, if_pos he]
      exact alook_eq_none_of_not_mem_keys _ _ (he ▸ hnd.1)
    · simp [aerase, he, alook, ih hnd.2]

theorem keys_aset (l : List (α × β)) (k : α) (v : β) :
    akeys (aset l k v) = if k ∈ akeys l then akeys l else akeys l ++ [k] := by
  simp only [akeys]
  induction l with
  | nil => simp [aset]
  | cons e rest ih =>
    by_cases he : e.1 = k
    · simp [aset, he]
    · by_cases hk : k ∈ List.map Prod.fst rest
      · simp only [if_pos hk] at ih
        simp [aset, if_neg he, hk, Ne.symm he, ih]
      · simp only [if_neg hk] at ih
        simp [aset, if_neg he, hk, Ne.symm he, ih]

theorem keys_aerase_sublist (l : List (α × β)) (k : α) :
    (akeys (aerase l k)).Sublist (akeys l) := by
  induction l with
  | nil => simp [aerase, akeys]
  | cons e rest ih =>
    by_cases he : e.1 = k
    · simp only [aerase, if_pos he, akeys, List.map_cons]
      exact List.sublist_cons_of_sublist _ (List.Sublist.refl _)
    · simp only [aerase, if_neg he, akeys, List.map_cons]
      exact List.Sublist.cons₂ _ ih

theorem nodup_keys_aset (l : List (α × β)) (k : α) (v : β)
    (hnd : (akeys l).Nodup) : (akeys (aset l k v)).Nodup := by
  rw [keys_aset]
  by_cases hk : k ∈ akeys l
  · simpa [hk] using hnd
  · rw [if_neg hk]
    exact hnd.append (List.nodup_singleton k)
      (by simpa [List.disjoint_singleton] using hk)

theorem nodup_keys_aerase (l : List (α × β)) (k : α)
    (hnd : (akeys l).Nodup) : (akeys (aerase l k)).Nodup :=
  (keys_aerase_sublist l k).nodup hnd

theorem alook_isSome_iff_mem_keys (l : List (α × β)) (k : α) :
    (alook l k).isSome ↔ k ∈ akeys l := by
  induction l with
  | nil => simp [akeys]
  | cons e rest ih =>
    by_cases he : e.1 = k
    · simp [alook, he, akeys, he ▸ List.mem_cons_self e.1 _]
    · simp only [alook_cons, if_neg he, akeys, List.map_cons, List.mem_cons]
      rw [show List.map Prod.fst rest = akeys rest from rfl]
      simp [Ne.symm he, ih]

end AListLemmas

/-! ## Order book (`OrderBookData` in `future-orderbook.py`)

Price keys are embedded as rationals (the source keys its dict by the
exchange's decimal price string) and quantities as rationals. -/

inductive Side : Type
  | ask
  | bid
deriving DecidableEq

def Side.other : Side → Side
  | .ask => .bid
  | .bid => .ask

structure BookLevel where
  ask : ℚ
  bid : ℚ
deriving DecidableEq

def BookLevel.get (l : BookLevel) : Side → ℚ
  | .ask => l.ask
  | .bid => l.bid

def BookLevel.set (l : BookLevel) : Side → ℚ → BookLevel
  | .ask, v => { l with ask := v }
  | .bid, v => { l with bid := v }

abbrev Book := List (ℚ × BookLevel)

/-- Embedding of `OrderBookData.update` (`future-orderbook.py` lines
290-302): a positive volume overwrites that side's resting quantity,
creating the level when absent; a non-positive volume zeroes that side and
deletes the whole level once both sides are non-positive.  The
`future-orderbook-spot.py` variant tests `== 0` instead of `<= 0` in the
deletion guard; the two agree on every book reachable by `update`, whose
stored quantities are never negative. -/
def OrderBookData.update (b : Book) (price : ℚ) (volume : ℚ) (side : Side) : Book :=
  if 0 < volume then
    match alook b price with
    | some l => aset b price (l.set side volume)
    | none => aset b price ((BookLevel.mk 0 0).set side volume)
  else
    match alook b price with
    | some l =>
      if (l.set side 0).ask ≤ 0 ∧ (l.set side 0).bid ≤ 0 then aerase b price
      else aset b price (l.set side 0)
    | none => b

/-- Quantity shown by the book for one side of a price, an absent level
reading as zero. -/
def getQty (b : Book) (price : ℚ) (side : Side) : ℚ :=
  ((alook b price).getD (BookLevel.mk 0 0)).get side

/-- Replay of a sequence of `update` calls from the empty book. -/
def applyOps (ops : List (ℚ × ℚ × Side)) : Book :=
  ops.foldl (fun b op => OrderBookData.update b op.1 op.2.1 op.2.2) []

/-- A book is alive when every stored level has a positive quantity on at
least one side, i.e. no level with both quantities non-positive remains. -/
def aliveBook (b : Book) : Prop :=
  ∀ x : ℚ × BookLevel, x ∈ b → 0 < x.2.ask ∨ 0 < x.2.bid

theorem BookLevel.get_set_same (l : BookLevel) (s : Side) (v : ℚ) :
    (l.set s v).get s = v := by
  cases s <;> rfl

theorem BookLevel.get_set_other (l : BookLevel) (s : Side) (v : ℚ) :
    (l.set s v).get s.other = l.get s.other := by
  cases s <;> rfl

theorem update_pos_some {b : Book} {p v : ℚ} {s : Side} {l : BookLevel}
    (hl : alook b p = some l) (hv : 0 < v) :
    OrderBookData.update b p v s = aset b p (l.set s v) := by
  unfold OrderBookData.update
  rw [if_pos hv, hl]

theorem update_pos_none {b : Book} {p v : ℚ} {s : Side}
    (hl : alook b p = none) (hv : 0 < v) :
    OrderBookData.update b p v s = aset b p ((BookLevel.mk 0 0).set s v) := by
  unfold OrderBookData.update
  rw [if_pos hv, hl]

theorem update_nonpos_some_dead {b : Book} {p v : ℚ} {s : Side} {l : BookLevel}
    (hl : alook b p = some l) (hv : ¬ 0 < v)
    (hdead : (l.set s 0).ask ≤ 0 ∧ (l.set s 0).bid ≤ 0) :
    OrderBookData.update b p v s = aerase b p := by
  unfold OrderBookData.update
  rw [if_neg hv, hl]
  show (if (l.set s 0).ask ≤ 0 ∧ (l.set s 0).bid ≤ 0
      then aerase b p else aset b p (l.set s 0)) = aerase b p
  rw [if_pos hdead]

theorem update_nonpos_some_alive {b : Book} {p v : ℚ} {s : Side} {l : BookLevel}
    (hl : alook b p = some l) (hv : ¬ 0 < v)
    (hdead : ¬ ((l.set s 0).ask ≤ 0 ∧ (l.set s 0).bid ≤ 0)) :
    OrderBookData.update b p v s = aset b p (l.set s 0) := by
  unfold OrderBookData.update
  rw [if_neg hv, hl]
  show (if (l.set s 0).ask ≤ 0 ∧ (l.set s 0).bid ≤ 0
      then aerase b p else aset b p (l.set s 0)) = aset b p (l.set s 0)
  rw [if_neg hdead]

theorem update_nonpos_none {b : Book} {p v : ℚ} {s : Side}
    (hl : alook b p = none) (hv : ¬ 0 < v) :
    OrderBookData.update b p v s = b := by
  unfold OrderBookData.update
  rw [if_neg hv, hl]

theorem aliveBook_update (b : Book) (p v : ℚ) (s : Side) (hb : aliveBook b) :
    aliveBook (OrderBookData.update b p v s) := by
  intro x hx
  by_cases hv : 0 < v
  · cases hl : alook b p with
    | some l =>
      rw [update_pos_some hl hv] at hx
      rcases mem_aset _ _ _ _ hx with h | h
      · subst h
        cases s
        · exact Or.inl hv
        · exact Or.inr hv
      · exact hb _ h
    | none =>
      rw [update_pos_none hl hv] at hx
      rcases mem_aset _ _ _ _ hx with h | h
      · subst h
        cases s
        · exact Or.inl hv
        · exact Or.inr hv
      · exact hb _ h
  · cases hl : alook b p with
    | some l =>
      by_cases hdead : (l.set s 0).ask ≤ 0 ∧ (l.set s 0).bid ≤ 0
      · rw [update_nonpos_some_dead hl hv hdead] at hx
        exact hb _ (mem_aerase _ _ _ hx)
      · rw [update_nonpos_some_alive hl hv hdead] at hx
        rcases mem_aset _ _ _ _ hx with h | h
        · subst h
          rcases not_and_or.mp hdead with h' | h'
          · exact Or.inl (lt_of_not_le h')
          · exact Or.inr (lt_of_not_le h')
        · exact hb _ h
    | none =>
      rw [update_nonpos_none hl hv] at hx
      exact hb _ hx

theorem aliveBook_applyOps (ops : List (ℚ × ℚ × Side)) : aliveBook (applyOps ops) := by
  suffices h : ∀ b, aliveBook b → aliveBook (ops.foldl
      (fun b op => OrderBookData.update b op.1 op.2.1 op.2.2) b) by
    exact h [] (by intro x hx; simp at hx)
  induction ops with
  | nil => intro b hb; exact hb
  | cons op rest ih =>
    intro b hb
    exact ih _ (aliveBook_update b op.1 op.2.1 op.2.2 hb)

theorem getQty_update_pos (b : Book) (p v : ℚ) (s : Side) (hv : 0 < v) :
    getQty (OrderBookData.update b p v s) p s = v := by
  cases hl : alook b p with
  | some l =>
    rw [update_pos_some hl hv]
    simp [getQty, alook_aset_self, BookLevel.get_set_same]
  | none =>
    rw [update_pos_none hl hv]
    simp [getQty, alook_aset_self, BookLevel.get_set_same]

theorem getQty_update_nonpos (b : Book) (p v : ℚ) (s : Side) (hv : ¬ 0 < v)
    (hnd : (akeys b).Nodup) :
    getQty (OrderBookData.update b p v s) p s = 0 ∧
      (getQty b p s.other ≤ 0 → alook (OrderBookData.update b p v s) p = none) := by
  cases hl : alook b p with
  | some l =>
    by_cases hdead : (l.set s 0).ask ≤ 0 ∧ (l.set s 0).bid ≤ 0
    · rw [update_nonpos_some_dead hl hv hdead]
      constructor
      · cases s <;> simp [getQty, aerase_of_nodup_keys b p hnd, BookLevel.get]
      · intro _
        exact aerase_of_nodup_keys b p hnd
    · rw [update_nonpos_some_alive hl hv hdead]
      constructor
      · simp [getQty, alook_aset_self, BookLevel.get_set_same]
      · intro hother
        exfalso
        apply hdead
        have hother' : l.get s.other ≤ 0 := by
          simpa [getQty, hl] using hother
        cases s
        · exact ⟨by simp [BookLevel.set], by
            simpa [Side.other, BookLevel.get, BookLevel.set] using hother'⟩
        · exact ⟨by
            simpa [Side.other, BookLevel.get, BookLevel.set] using hother',
            by simp [BookLevel.set]⟩
  | none =>
    rw [update_nonpos_none hl hv]
    constructor
    · cases s <;> simp [getQty, hl, BookLevel.get]
    · intro _
      exact hl

theorem nodup_keys_update (b : Book) (p v : ℚ) (s : Side)
    (hnd : (akeys b).Nodup) : (akeys (OrderBookData.update b p v s)).Nodup := by
  by_cases hv : 0 < v
  · cases hl : alook b p with
    | some l => rw [update_pos_some hl hv]; exact nodup_keys_aset b p _ hnd
    | none => rw [update_pos_none hl hv]; exact nodup_keys_aset b p _ hnd
  · cases hl : alook b p with
    | some l =>
      by_cases hdead : (l.set s 0).ask ≤ 0 ∧ (l.set s 0).bid ≤ 0
      · rw [update_nonpos_some_dead hl hv hdead]; exact nodup_keys_aerase b p hnd
      · rw [update_nonpos_some_alive hl hv hdead]; exact nodup_keys_aset b p _ hnd
    | none => rw [update_nonpos_none hl hv]; exact hnd

theorem nodup_keys_applyOps (ops : List (ℚ × ℚ × Side)) :
    (akeys (applyOps ops)).Nodup := by
  suffices h : ∀ b, (akeys b).Nodup → (akeys (ops.foldl
      (fun b op => OrderBookData.update b op.1 op.2.1 op.2.2) b)).Nodup by
    exact h [] (by simp [akeys])
  induction ops with
  | nil => intro b hb; exact hb
  | cons op rest ih =>
    intro b hb
    exact ih _ (nodup_keys_update b op.1 op.2.1 op.2.2 hb)

/-- C1: for every sequence of `OrderBookData.update` calls starting from
the empty book, a call with positive quantity sets that side's quantity at
that price to exactly the given quantity (creating the level when absent);
a call with non-positive quantity zeroes that side and removes the level
entirely once both sides are non-positive; and after any such sequence no
price level with both bid quantity and ask quantity non-positive remains
in the map. -/
theorem orderbook_update_spec (ops : List (ℚ × ℚ × Side)) (p v : ℚ) (s : Side) :
    (0 < v → getQty (OrderBookData.update (applyOps ops) p v s) p s = v) ∧
    (v ≤ 0 →
      getQty (OrderBookData.update (applyOps ops) p v s) p s = 0 ∧
        (getQty (applyOps ops) p s.other ≤ 0 →
          alook (OrderBookData.update (applyOps ops) p v s) p = none)) ∧
    (∀ x : ℚ × BookLevel, x ∈ applyOps ops → ¬ (x.2.ask ≤ 0 ∧ x.2.bid ≤ 0)) := by
  refine ⟨fun hv => getQty_update_pos _ p v s hv, fun hv => ?_, fun x hx => ?_⟩
  · exact getQty_update_nonpos _ p v s (not_lt.mpr hv) (nodup_keys_applyOps ops)
  · rcases aliveBook_applyOps ops x hx with h | h
    · exact fun hc => absurd hc.1 (not_le.mpr h)
    · exact fun hc => absurd hc.2 (not_le.mpr h)

/-- Witness for `orderbook_update_spec`: on the book built by a single
insert of an ask of 5 at price 100, the zero-quantity call zeroes the ask
side and, the bid side being zero as well, removes the level. -/
theorem orderbook_update_spec_witness :
    getQty (OrderBookData.update (applyOps [(100, 5, Side.ask)]) 100 0 Side.ask)
        100 Side.ask = 0 ∧
      alook (OrderBookData.update (applyOps [(100, 5, Side.ask)]) 100 0 Side.ask)
        100 = none := by
  have h := (orderbook_update_spec [(100, 5, Side.ask)] 100 0 Side.ask).2.1 le_rfl
  refine ⟨h.1, h.2 ?_⟩
  norm_num [applyOps, OrderBookData.update, aset, alook, getQty, BookLevel.set,
    BookLevel.get, Side.other]

/-! ## Footprint aggregation (`OrderFlowTrader` in `footprint.py`)

The trader's mutable attributes touched by `spot_message_handler`,
`evaluate_minute` and `new_minute_footprint` are gathered into
`TraderState`; one websocket callback becomes one application of
`spot_message_handler`.  Statements printed, data queued to the TinyDB
storage thread and display refreshes are I/O without influence on this
state and are not modelled. -/

/-- Truncation toward zero, the semantics of Python `int()` on a float. -/
def pyInt (q : ℚ) : Int := if 0 ≤ q then ⌊q⌋ else ⌈q⌉

/-- Embedding of `get_minute_str` (`footprint.py` lines 492-497): the
source formats the local time of the millisecond timestamp as a string
`YYYYMMDDHHMM` with the minute floored to a multiple of five.  On any
timezone at a whole multiple of five minutes from UTC that string is an
injective image of the 5-minute bucket index of the timestamp, which is
what the model returns. -/
def get_minute_str (timestamp_ms : Nat) : Nat := timestamp_ms / 300000

/-- One price row of a footprint window (`order_flows` values). -/
structure FPLevel where
  buy_volume : ℚ
  sell_volume : ℚ
  order_count : Nat
deriving DecidableEq

abbrev Flows := List (Int × FPLevel)

/-- One 5-minute footprint window. The Python dict keys `order_flows` by
`str(int(price))`; the model keys it by `int(price)` directly. The field
`open` of the source is spelled `opn` (`open` is reserved in Lean). -/
structure Footprint where
  time : Option Nat
  opn : Option ℚ
  high : Option ℚ
  low : Option ℚ
  close : Option ℚ
  total_volume : ℚ
  buy_volume : ℚ
  sell_volume : ℚ
  delta : ℚ
  order_flows : Flows
deriving DecidableEq

/-- Embedding of `new_minute_footprint` (`footprint.py` lines 499-513). -/
def new_minute_footprint : Footprint :=
  { time := none, opn := none, high := none, low := none, close := none,
    total_volume := 0, buy_volume := 0, sell_volume := 0, delta := 0,
    order_flows := [] }

/-- Trader state mutated by the message handler: the current window key,
the live window, the in-memory history, and the connection fields. -/
structure TraderState where
  current_minute : Option Nat
  footprint : Footprint
  orderflow_history : List Footprint
  reconnect_delay : Nat
  last_message_time : Nat
deriving DecidableEq

def HISTORY_LENGTH : Nat := 288

def max_reconnect_delay : Nat := 60

/-- Embedding of `evaluate_minute` (`footprint.py` lines 635-645): the
live window's delta is recomputed, the window is deep-copied into the
in-memory history (a pure value in the model), and the oldest entry is
evicted once the history exceeds `HISTORY_LENGTH`.  The enqueue to the
TinyDB storage queue is external I/O and not modelled. -/
def evaluate_minute (st : TraderState) : TraderState :=
  let fp := { st.footprint with
    delta := st.footprint.buy_volume - st.footprint.sell_volume }
  let hist := st.orderflow_history ++ [fp]
  let hist := if HISTORY_LENGTH < hist.length then hist.drop 1 else hist
  { st with footprint := fp, orderflow_history := hist }

/-- Fresh window opened by the handler on the first trade of a bucket
(`footprint.py` lines 788-794 and 798-804). -/
def open_window (trade_time : Nat) (price : ℚ) : Footprint :=
  { new_minute_footprint with
    time := some trade_time,
    opn := some price,
    high := some price,
    low := some price,
    close := some price }

/-- OHLC maintenance for a trade inside the current window (`footprint.py`
lines 806-811).  The source compares against `high`/`low` directly; they
are non-null whenever this branch runs, and an absent value is read as the
trade price itself. -/
def update_ohlc (fp : Footprint) (price : ℚ) : Footprint :=
  { fp with
    close := some price,
    high := if fp.high.getD price < price then some price else fp.high,
    low := if price < fp.low.getD price then some price else fp.low }

/-- Volume and price-level accumulation of one trade into the live window
(`footprint.py` lines 813-838), ending with the delta recomputation. -/
def accumulate_trade (fp : Footprint) (price volume : ℚ) (is_buy : Bool) : Footprint :=
  let fp := { fp with total_volume := fp.total_volume + volume }
  let fp := if is_buy then { fp with buy_volume := fp.buy_volume + volume }
            else { fp with sell_volume := fp.sell_volume + volume }
  let key := pyInt price
  let level := (alook fp.order_flows key).getD (FPLevel.mk 0 0 0)
  let level := if is_buy then { level with buy_volume := level.buy_volume + volume }
               else { level with sell_volume := level.sell_volume + volume }
  let level := { level with order_count := level.order_count + 1 }
  let fp := { fp with order_flows := aset fp.order_flows key level }
  { fp with delta := fp.buy_volume - fp.sell_volume }

/-- Raw inbound message as seen by `spot_message_handler`: JSON that fails
to parse, a parsed message whose event type is not `aggTrade`, or an
`aggTrade` whose price and quantity fields either convert to numbers
(`some`) or fail conversion (`none`; a missing quantity converts to 0 via
the source's `.get('q', 0)` default). -/
inductive RawMsg : Type
  | malformed
  | other
  | aggTrade (T : Nat) (p : Option ℚ) (q : Option ℚ) (m : Bool)
deriving DecidableEq

/-- Embedding of `spot_message_handler` (`footprint.py` lines 758-841).
The handler first records the receive time and resets the reconnect delay
(these happen before `json.loads`, hence also on undecodable input), then
decodes; a decode or numeric-conversion failure discards the message.  A
valid trade either opens the first window, rolls the window over when its
bucket key differs from the current one, or updates OHLC in place — and is
then accumulated into the live window. -/
def spot_message_handler (st : TraderState) (now : Nat) (msg : RawMsg) : TraderState :=
  let st1 := { st with last_message_time := now, reconnect_delay := 1 }
  match msg with
  | .malformed => st1
  | .other => st1
  | .aggTrade T p q m =>
    match p, q with
    | some price, some volume =>
      let minute_str := get_minute_str T
      let is_buy := !m
      let st2 :=
        match st1.current_minute with
        | none =>
          { st1 with
            current_minute := some minute_str,
            footprint := open_window T price }
        | some cur =>
          if minute_str ≠ cur then
            let st' := evaluate_minute st1
            { st' with
              current_minute := some minute_str,
              footprint := open_window T price }
          else
            { st1 with footprint := update_ohlc st1.footprint price }
      { st2 with footprint := accumulate_trade st2.footprint price volume is_buy }
    | _, _ => st1

/-- State of the trader before the first message. -/
def initial_state : TraderState :=
  { current_minute := none, footprint := new_minute_footprint,
    orderflow_history := [], reconnect_delay := 1, last_message_time := 0 }

/-- Replay of a list of raw messages through the handler. -/
def run_messages (st : TraderState) (now : Nat) (msgs : List RawMsg) : TraderState :=
  msgs.foldl (fun s msg => spot_message_handler s now msg) st

/-! ### Branch equations for the handler -/

theorem handler_malformed (st : TraderState) (now : Nat) :
    spot_message_handler st now .malformed =
      { st with last_message_time := now, reconnect_delay := 1 } := rfl

theorem handler_other (st : TraderState) (now : Nat) :
    spot_message_handler st now .other =
      { st with last_message_time := now, reconnect_delay := 1 } := rfl

theorem handler_bad_price (st : TraderState) (now T : Nat) (q : Option ℚ) (m : Bool) :
    spot_message_handler st now (.aggTrade T none q m) =
      { st with last_message_time := now, reconnect_delay := 1 } := rfl

theorem handler_bad_qty (st : TraderState) (now T : Nat) (p : Option ℚ) (m : Bool) :
    spot_message_handler st now (.aggTrade T p none m) =
      { st with last_message_time := now, reconnect_delay := 1 } := by
  cases p <;> rfl

theorem handler_trade_first (st : TraderState) (now T : Nat) (price volume : ℚ)
    (m : Bool) (h : st.current_minute = none) :
    spot_message_handler st now (.aggTrade T (some price) (some volume) m) =
      { st with
        last_message_time := now,
        reconnect_delay := 1,
        current_minute := some (get_minute_str T),
        footprint := accumulate_trade (open_window T price) price volume (!m) } := by
  unfold spot_message_handler
  simp only [h]

theorem handler_trade_same (st : TraderState) (now T : Nat) (price volume : ℚ)
    (m : Bool) (k : Nat) (hcur : st.current_minute = some k)
    (hkey : get_minute_str T = k) :
    spot_message_handler st now (.aggTrade T (some price) (some volume) m) =
      { st with
        last_message_time := now,
        reconnect_delay := 1,
        footprint := accumulate_trade (update_ohlc st.footprint price)
          price volume (!m) } := by
  unfold spot_message_handler
  simp only [hcur, hkey]
  simp

theorem handler_trade_roll (st : TraderState) (now T : Nat) (price volume : ℚ)
    (m : Bool) (k : Nat) (hcur : st.current_minute = some k)
    (hkey : get_minute_str T ≠ k) :
    spot_message_handler st now (.aggTrade T (some price) (some volume) m) =
      { evaluate_minute { st with last_message_time := now, reconnect_delay := 1 } with
        current_minute := some (get_minute_str T),
        footprint := accumulate_trade (open_window T price) price volume (!m) } := by
  unfold spot_message_handler
  simp only [hcur]
  simp [hkey]

/-! ### Projection facts -/

theorem accumulate_trade_delta (fp : Footprint) (price volume : ℚ) (b : Bool) :
    (accumulate_trade fp price volume b).delta =
      (accumulate_trade fp price volume b).buy_volume -
        (accumulate_trade fp price volume b).sell_volume := by
  cases b <;> rfl

theorem accumulate_trade_meta (fp : Footprint) (price volume : ℚ) (b : Bool) :
    (accumulate_trade fp price volume b).time = fp.time ∧
      (accumulate_trade fp price volume b).opn = fp.opn ∧
      (accumulate_trade fp price volume b).high = fp.high ∧
      (accumulate_trade fp price volume b).low = fp.low ∧
      (accumulate_trade fp price volume b).close = fp.close := by
  cases b <;> exact ⟨rfl, rfl, rfl, rfl, rfl⟩

theorem evaluate_minute_getLast (st : TraderState) :
    (evaluate_minute st).orderflow_history.getLast? =
      some { st.footprint with
        delta := st.footprint.buy_volume - st.footprint.sell_volume } := by
  unfold evaluate_minute
  by_cases h : HISTORY_LENGTH < (st.orderflow_history ++
      [{ st.footprint with
         delta := st.footprint.buy_volume - st.footprint.sell_volume }]).length
  · simp only [if_pos h]
    cases hh : st.orderflow_history with
    | nil =>
      exfalso
      rw [hh] at h
      simp [HISTORY_LENGTH] at h
    | cons a rest =>
      simp [List.getLast?_concat]
  · simp only [if_neg h]
    simp [List.getLast?_concat]

theorem handler_ends_accumulated (st : TraderState) (now T : Nat)
    (price volume : ℚ) (m : Bool) :
    ∃ fp : Footprint,
      (spot_message_handler st now (.aggTrade T (some price) (some volume) m)).footprint
        = accumulate_trade fp price volume (!m) := by
  cases hcur : st.current_minute with
  | none => exact ⟨open_window T price, by rw [handler_trade_first st now T price volume m hcur]⟩
  | some k =>
    by_cases hkey : get_minute_str T = k
    · exact ⟨update_ohlc st.footprint price,
        by rw [handler_trade_same st now T price volume m k hcur hkey]⟩
    · exact ⟨open_window T price,
        by rw [handler_trade_roll st now T price volume m k hcur hkey]⟩

/-- C4: immediately after every handler call that accumulates a trade, the
live window satisfies `delta = buy_volume - sell_volume`, and
`evaluate_minute` recomputes `delta` as `buy_volume - sell_volume` on the
window it archives into history. -/
theorem delta_invariant (st : TraderState) (now T : Nat) (price volume : ℚ) (m : Bool) :
    ((spot_message_handler st now
        (.aggTrade T (some price) (some volume) m)).footprint.delta =
      (spot_message_handler st now
        (.aggTrade T (some price) (some volume) m)).footprint.buy_volume -
      (spot_message_handler st now
        (.aggTrade T (some price) (some volume) m)).footprint.sell_volume) ∧
    ((evaluate_minute st).orderflow_history.getLast? =
      some { st.footprint with
        delta := st.footprint.buy_volume - st.footprint.sell_volume }) := by
  constructor
  · obtain ⟨fp, hfp⟩ := handler_ends_accumulated st now T price volume m
    rw [hfp]
    exact accumulate_trade_delta fp price volume (!m)
  · exact evaluate_minute_getLast st

/-! ### Reconnect backoff (`handle_disconnect`, `footprint.py` lines 447-468) -/

/-- Delay update performed by one failed reconnect attempt
(`footprint.py` line 456): the delay doubles, capped at
`max_reconnect_delay`. -/
def reconnect_fail_step (d : Nat) : Nat := min (d * 2) max_reconnect_delay

/-- C8: starting from the floor of 1 second, after `N` consecutive failed
reconnect attempts the delay equals `min (floor * 2 ^ N) 60`, and any
message reaching the handler resets the delay to the floor. -/
theorem reconnect_backoff (N : Nat) (st : TraderState) (now : Nat) (msg : RawMsg) :
    reconnect_fail_step^[N] 1 = min (1 * 2 ^ N) max_reconnect_delay ∧
      (spot_message_handler st now msg).reconnect_delay = 1 := by
  constructor
  · induction N with
    | zero => simp [max_reconnect_delay]
    | succ n ih =>
      rw [Function.iterate_succ_apply', ih, reconnect_fail_step]
      have h2 : (2 : ℕ) ^ (n + 1) = 2 ^ n * 2 := by ring
      rw [max_reconnect_delay] at *
      omega
  · cases msg with
    | malformed => rw [handler_malformed]
    | other => rw [handler_other]
    | aggTrade T p q m =>
      cases p with
      | none => rw [handler_bad_price]
      | some price =>
        cases q with
        | none => rw [handler_bad_qty]
        | some volume =>
          cases hcur : st.current_minute with
          | none => rw [handler_trade_first st now T price volume m hcur]
          | some k =>
            by_cases hkey : get_minute_str T = k
            · rw [handler_trade_same st now T price volume m k hcur hkey]
            · rw [handler_trade_roll st now T price volume m k hcur hkey]
              simp [evaluate_minute]

/-! ### Window rollover (C2, C3, C5) -/

/-- C2: from a fresh trader, trades whose bucket keys are W1, W1, W2
archive exactly one window — the completed W1 window with its delta
recomputed — and leave a live window whose time and open / high / low /
close all come from the first W2 trade. -/
theorem window_rollover (d lm now T1 T2 T3 : Nat) (p1 p2 p3 q1 q2 q3 : ℚ)
    (m1 m2 m3 : Bool)
    (h12 : get_minute_str T2 = get_minute_str T1)
    (h13 : get_minute_str T3 ≠ get_minute_str T1) :
    (run_messages
        { current_minute := none, footprint := new_minute_footprint,
          orderflow_history := [], reconnect_delay := d, last_message_time := lm }
        now
        [.aggTrade T1 (some p1) (some q1) m1,
         .aggTrade T2 (some p2) (some q2) m2,
         .aggTrade T3 (some p3) (some q3) m3]).orderflow_history =
      [{ (run_messages
            { current_minute := none, footprint := new_minute_footprint,
              orderflow_history := [], reconnect_delay := d, last_message_time := lm }
            now
            [.aggTrade T1 (some p1) (some q1) m1,
             .aggTrade T2 (some p2) (some q2) m2]).footprint with
          delta :=
            (run_messages
              { current_minute := none, footprint := new_minute_footprint,
                orderflow_history := [], reconnect_delay := d, last_message_time := lm }
              now
              [.aggTrade T1 (some p1) (some q1) m1,
               .aggTrade T2 (some p2) (some q2) m2]).footprint.buy_volume -
            (run_messages
              { current_minute := none, footprint := new_minute_footprint,
                orderflow_history := [], reconnect_delay := d, last_message_time := lm }
              now
              [.aggTrade T1 (some p1) (some q1) m1,
               .aggTrade T2 (some p2) (some q2) m2]).footprint.sell_volume }] ∧
    (run_messages
        { current_minute := none, footprint := new_minute_footprint,
          orderflow_history := [], reconnect_delay := d, last_message_time := lm }
        now
        [.aggTrade T1 (some p1) (some q1) m1,
         .aggTrade T2 (some p2) (some q2) m2,
         .aggTrade T3 (some p3) (some q3) m3]).current_minute =
      some (get_minute_str T3) ∧
    (run_messages
        { current_minute := none, footprint := new_minute_footprint,
          orderflow_history := [], reconnect_delay := d, last_message_time := lm }
        now
        [.aggTrade T1 (some p1) (some q1) m1,
         .aggTrade T2 (some p2) (some q2) m2,
         .aggTrade T3 (some p3) (some q3) m3]).footprint.time = some T3 ∧
    (run_messages
        { current_minute := none, footprint := new_minute_footprint,
          orderflow_history := [], reconnect_delay := d, last_message_time := lm }
        now
        [.aggTrade T1 (some p1) (some q1) m1,
         .aggTrade T2 (some p2) (some q2) m2,
         .aggTrade T3 (some p3) (some q3) m3]).footprint.opn = some p3 ∧
    (run_messages
        { current_minute := none, footprint := new_minute_footprint,
          orderflow_history := [], reconnect_delay := d, last_message_time := lm }
        now
        [.aggTrade T1 (some p1) (some q1) m1,
         .aggTrade T2 (some p2) (some q2) m2,
         .aggTrade T3 (some p3) (some q3) m3]).footprint.high = some p3 ∧
    (run_messages
        { current_minute := none, footprint := new_minute_footprint,
          orderflow_history := [], reconnect_delay := d, last_message_time := lm }
        now
        [.aggTrade T1 (some p1) (some q1) m1,
         .aggTrade T2 (some p2) (some q2) m2,
         .aggTrade T3 (some p3) (some q3) m3]).footprint.low = some p3 ∧
    (run_messages
        { current_minute := none, footprint := new_minute_footprint,
          orderflow_history := [], reconnect_delay := d, last_message_time := lm }
        now
        [.aggTrade T1 (some p1) (some q1) m1,
         .aggTrade T2 (some p2) (some q2) m2,
         .aggTrade T3 (some p3) (some q3) m3]).footprint.close = some p3 := by
  set st0 : TraderState :=
    { current_minute := none, footprint := new_minute_footprint,
      orderflow_history := [], reconnect_delay := d, last_message_time := lm } with hst0
  have h0cur : st0.current_minute = none := rfl
  set s1 := spot_message_handler st0 now (.aggTrade T1 (some p1) (some q1) m1) with hs1
  have e1 := handler_trade_first st0 now T1 p1 q1 m1 h0cur
  have h1cur : s1.current_minute = some (get_minute_str T1) := by rw [hs1, e1]
  have h1hist : s1.orderflow_history = [] := by rw [hs1, e1]
  set s2 := spot_message_handler s1 now (.aggTrade T2 (some p2) (some q2) m2) with hs2
  have e2 := handler_trade_same s1 now T2 p2 q2 m2 (get_minute_str T1) h1cur h12
  have h2cur : s2.current_minute = some (get_minute_str T1) := by
    rw [hs2, e2]
    exact h1cur
  have h2hist : s2.orderflow_history = [] := by
    rw [hs2, e2]
    exact h1hist
  set s3 := spot_message_handler s2 now (.aggTrade T3 (some p3) (some q3) m3) with hs3
  have e3 := handler_trade_roll s2 now T3 p3 q3 m3 (get_minute_str T1) h2cur h13
  have hrun2 : run_messages st0 now
      [.aggTrade T1 (some p1) (some q1) m1, .aggTrade T2 (some p2) (some q2) m2] = s2 := rfl
  have hrun3 : run_messages st0 now
      [.aggTrade T1 (some p1) (some q1) m1, .aggTrade T2 (some p2) (some q2) m2,
       .aggTrade T3 (some p3) (some q3) m3] = s3 := rfl
  rw [hrun2, hrun3, hs3, e3]
  have hmeta := accumulate_trade_meta (open_window T3 p3) p3 q3 (!m3)
  refine ⟨?_, rfl, hmeta.1, hmeta.2.1, hmeta.2.2.1, hmeta.2.2.2.1, hmeta.2.2.2.2⟩
  show (evaluate_minute
      { s2 with last_message_time := now, reconnect_delay := 1 }).orderflow_history = _
  unfold evaluate_minute
  simp only [h2hist]
  simp [HISTORY_LENGTH]

/-- Witness for `window_rollover`: concrete trades at millisecond
timestamps 0, 1 (bucket 0) and 300000 (bucket 1). -/
theorem window_rollover_witness :
    (run_messages
        { current_minute := none, footprint := new_minute_footprint,
          orderflow_history := [], reconnect_delay := 1, last_message_time := 0 }
        5
        [.aggTrade 0 (some 1) (some 1) false,
         .aggTrade 1 (some 2) (some 1) false,
         .aggTrade 300000 (some 3) (some 1) false]).current_minute =
      some (get_minute_str 300000) ∧
    (run_messages
        { current_minute := none, footprint := new_minute_footprint,
          orderflow_history := [], reconnect_delay := 1, last_message_time := 0 }
        5
        [.aggTrade 0 (some 1) (some 1) false,
         .aggTrade 1 (some 2) (some 1) false,
         .aggTrade 300000 (some 3) (some 1) false]).footprint.opn = some 3 := by
  have h := window_rollover 1 0 5 0 1 300000 1 2 3 1 1 1 false false false
    (by decide) (by decide)
  exact ⟨h.2.1, h.2.2.2.1⟩

/-- C3 counterexample: a trade whose window key denotes an *earlier*
bucket than the current window is not accumulated into the current window
— the handler compares bucket keys for plain inequality, so the older
trade archives the current window (history grows from 0 to 1 entries) and
reopens a window keyed by the past bucket (`current_minute` becomes bucket
0 again).  This refutes the claim that no archival is triggered and that
no past window is reopened for such trades. -/
theorem stale_trade_triggers_archival :
    (run_messages
        { current_minute := none, footprint := new_minute_footprint,
          orderflow_history := [], reconnect_delay := 1, last_message_time := 0 }
        5
        [.aggTrade 300000 (some 100) (some 1) false,
         .aggTrade 0 (some 100) (some 1) false]).orderflow_history.length = 1 ∧
    (run_messages
        { current_minute := none, footprint := new_minute_footprint,
          orderflow_history := [], reconnect_delay := 1, last_message_time := 0 }
        5
        [.aggTrade 300000 (some 100) (some 1) false,
         .aggTrade 0 (some 100) (some 1) false]).current_minute =
      some (get_minute_str 0) := by
  decide

/-- C3 as amended: a trade older than the current window's start whose
window key still equals the current window's key is accumulated into the
current window — no archival is triggered, history and the current window
key are untouched, and the trade lands in the live window via the
in-window OHLC update and accumulation path. -/
theorem stale_trade_same_bucket (st : TraderState) (now T t0 k : Nat)
    (price volume : ℚ) (m : Bool)
    (hcur : st.current_minute = some k)
    (_hstart : st.footprint.time = some t0)
    (_hold : T < t0)
    (hkey : get_minute_str T = k) :
    (spot_message_handler st now
        (.aggTrade T (some price) (some volume) m)).orderflow_history =
      st.orderflow_history ∧
    (spot_message_handler st now
        (.aggTrade T (some price) (some volume) m)).current_minute =
      st.current_minute ∧
    (spot_message_handler st now
        (.aggTrade T (some price) (some volume) m)).footprint =
      accumulate_trade (update_ohlc st.footprint price) price volume (!m) := by
  rw [handler_trade_same st now T price volume m k hcur hkey]
  exact ⟨rfl, rfl, rfl⟩

/-- Witness for `stale_trade_same_bucket`: the current window was opened
at millisecond 400000 of bucket 1; a late trade stamped 350000 still falls
in bucket 1 and is accumulated without touching the history. -/
theorem stale_trade_same_bucket_witness :
    (spot_message_handler
        { current_minute := some 1,
          footprint :=
            { time := some 400000, opn := some 2, high := some 2, low := some 2,
              close := some 2, total_volume := 1, buy_volume := 1,
              sell_volume := 0, delta := 1, order_flows := [(2, FPLevel.mk 1 0 1)] },
          orderflow_history := [], reconnect_delay := 1, last_message_time := 0 }
        5 (.aggTrade 350000 (some 3) (some 1) false)).orderflow_history = [] ∧
    (spot_message_handler
        { current_minute := some 1,
          footprint :=
            { time := some 400000, opn := some 2, high := some 2, low := some 2,
              close := some 2, total_volume := 1, buy_volume := 1,
              sell_volume := 0, delta := 1, order_flows := [(2, FPLevel.mk 1 0 1)] },
          orderflow_history := [], reconnect_delay := 1, last_message_time := 0 }
        5 (.aggTrade 350000 (some 3) (some 1) false)).current_minute = some 1 := by
  have h := stale_trade_same_bucket
    { current_minute := some 1,
      footprint :=
        { time := some 400000, opn := some 2, high := some 2, low := some 2,
          close := some 2, total_volume := 1, buy_volume := 1,
          sell_volume := 0, delta := 1, order_flows := [(2, FPLevel.mk 1 0 1)] },
      orderflow_history := [], reconnect_delay := 1, last_message_time := 0 }
    5 350000 400000 1 3 1 false rfl rfl (by decide) (by decide)
  exact ⟨h.1, h.2.1⟩

/-- C5: archival is a deep copy — the most recent history entry read back
immediately after `evaluate_minute` is field-for-field the window state
just before archival with its delta recomputed, and any further trade that
stays in the (new) current window leaves the history, hence that archived
entry, untouched.  History entries are immutable values in the model;
trades only ever append to (or, at capacity, evict the oldest from) the
history. -/
theorem archival_roundtrip (st : TraderState) :
    ((evaluate_minute st).orderflow_history.getLast? =
      some { st.footprint with
        delta := st.footprint.buy_volume - st.footprint.sell_volume }) ∧
    (∀ (st' : TraderState) (now T : Nat) (p q : ℚ) (m : Bool),
      st'.current_minute = some (get_minute_str T) →
      (spot_message_handler st' now
          (.aggTrade T (some p) (some q) m)).orderflow_history =
        st'.orderflow_history) := by
  refine ⟨evaluate_minute_getLast st, fun st' now T p q m hcur => ?_⟩
  rw [handler_trade_same st' now T p q m (get_minute_str T) hcur rfl]

/-- Witness for `archival_roundtrip`: archiving the fresh window stores it
back verbatim with delta recomputed, and an in-window trade at millisecond
330000 of bucket 1 leaves the singleton history untouched. -/
theorem archival_roundtrip_witness :
    ((evaluate_minute initial_state).orderflow_history.getLast? =
      some { new_minute_footprint with
        delta := new_minute_footprint.buy_volume - new_minute_footprint.sell_volume }) ∧
    (spot_message_handler
        { current_minute := some 1,
          footprint :=
            { time := some 310000, opn := some 7, high := some 7, low := some 7,
              close := some 7, total_volume := 2, buy_volume := 0,
              sell_volume := 2, delta := -2, order_flows := [(7, FPLevel.mk 0 2 1)] },
          orderflow_history := [new_minute_footprint], reconnect_delay := 1,
          last_message_time := 0 }
        9 (.aggTrade 330000 (some 8) (some 1) true)).orderflow_history =
      [new_minute_footprint] := by
  have h := archival_roundtrip initial_state
  refine ⟨h.1, ?_⟩
  have h2 := h.2
    { current_minute := some 1,
      footprint :=
        { time := some 310000, opn := some 7, high := some 7, low := some 7,
          close := some 7, total_volume := 2, buy_volume := 0,
          sell_volume := 2, delta := -2, order_flows := [(7, FPLevel.mk 0 2 1)] },
      orderflow_history := [new_minute_footprint], reconnect_delay := 1,
      last_message_time := 0 }
    9 330000 8 1 true (by decide)
  exact h2

/-! ## Order-book message handler (`OrderBookTrader` in `future-orderbook.py`)

The mutable attributes of `OrderBookData` touched by
`OrderBookTrader.message_handler` become `OBState`; the wall-clock
`time.time() * 1000` read by `add_trade` and `clean_old_trades` is passed
in as `now`. -/

inductive TradeSide : Type
  | buy
  | sell
deriving DecidableEq

/-- One `recent_trades` record of `OrderBookData`. -/
structure TradeRec where
  buy_volume : ℚ
  sell_volume : ℚ
  timestamp : ℚ
deriving DecidableEq

structure OBState where
  price_levels : Book
  current_price : Option ℚ
  recent_trades : List (ℚ × TradeRec)
  last_trade_side : Option TradeSide
deriving DecidableEq

def trade_display_duration : ℚ := 3000

def max_trade_records : Nat := 100

/-- Embedding of `OrderBookData.clean_old_trades` (`future-orderbook.py`
lines 332-352): entries older than `trade_display_duration` are dropped,
then, if more than `max_trade_records` remain, the oldest entries by
timestamp are deleted, keeping the survivors in dict order. -/
def clean_old_trades (rt : List (ℚ × TradeRec)) (now : ℚ) : List (ℚ × TradeRec) :=
  let rt := rt.filter (fun e => decide (now - e.2.timestamp ≤ trade_display_duration))
  if max_trade_records < rt.length then
    let victims :=
      ((List.insertionSort (fun a b => a.2.timestamp ≤ b.2.timestamp) rt).take
        (rt.length - max_trade_records)).map Prod.fst
    rt.filter (fun e => decide (e.1 ∉ victims))
  else rt

/-- Embedding of `OrderBookData.add_trade` (`future-orderbook.py` lines
304-330).  The source records the trade side and inserts a zeroed record
for a fresh price *before* running `float(volume)`; when that conversion
raises (`volume = none`) the handler's `except` catches it and the partial
mutation survives, which the `volume = none` branch reproduces. -/
def add_trade (ob : OBState) (now : ℚ) (price : ℚ) (volume : Option ℚ)
    (is_buyer_maker : Bool) : OBState :=
  let side : TradeSide := if is_buyer_maker then .sell else .buy
  let ob := { ob with last_trade_side := some side }
  let rt := match alook ob.recent_trades price with
            | some _ => ob.recent_trades
            | none => ob.recent_trades ++ [(price, TradeRec.mk 0 0 now)]
  let ob := { ob with recent_trades := rt }
  match volume with
  | none => ob
  | some v =>
    let rec0 := (alook rt price).getD (TradeRec.mk 0 0 now)
    let rec1 := if side = .buy
      then { rec0 with buy_volume := rec0.buy_volume + v }
      else { rec0 with sell_volume := rec0.sell_volume + v }
    let rec2 := { rec1 with timestamp := now }
    { ob with recent_trades := clean_old_trades (aset rt price rec2) now }

/-- Inbound message as seen by `OrderBookTrader.message_handler`: JSON
that fails to parse, a message of neither handled event type, a
`depthUpdate` whose per-side `[price, qty]` pairs either convert (`some`)
or fail conversion and are skipped (`none`), or an `aggTrade` whose
price/quantity fields may be absent (outer `Option`) and whose quantity
may fail the `float` conversion inside `add_trade` (inner `Option`). -/
inductive OBMsg : Type
  | malformed
  | other
  | depthUpdate (asks bids : List (ℚ × Option ℚ))
  | aggTradeOB (p : Option ℚ) (q : Option (Option ℚ)) (m : Bool)
deriving DecidableEq

/-- Per-side depth application (`future-orderbook.py` lines 417-434): each
pair whose quantity parses is applied through `OrderBookData.update`;
pairs that fail conversion are skipped individually. -/
def ob_apply_depth (b : Book) (side : Side) : List (ℚ × Option ℚ) → Book
  | [] => b
  | (p, some v) :: rest => ob_apply_depth (OrderBookData.update b p v side) side rest
  | (_, none) :: rest => ob_apply_depth b side rest

/-- Embedding of `OrderBookTrader.message_handler` (`future-orderbook.py`
lines 409-459).  Undecodable JSON is caught with no prior mutation; a
`depthUpdate` folds asks then bids through `update`; an `aggTrade` with
both fields present runs `add_trade` and, only when the quantity
conversion inside it succeeded, `update_current_price`. -/
def message_handler (ob : OBState) (now : ℚ) (msg : OBMsg) : OBState :=
  match msg with
  | .malformed => ob
  | .other => ob
  | .depthUpdate asks bids =>
    { ob with price_levels :=
        ob_apply_depth (ob_apply_depth ob.price_levels .ask asks) .bid bids }
  | .aggTradeOB p q m =>
    match p, q with
    | some price, some qf =>
      let ob1 := add_trade ob now price qf m
      match qf with
      | some _ => { ob1 with current_price := some price }
      | none => ob1
    | _, _ => ob

/-- C9 counterexample: the footprint handler records the receive time and
resets the reconnect delay *before* attempting to decode, so an
undecodable message does mutate the connection state: from a state with
`reconnect_delay = 32` and `last_message_time = 77`, processing malformed
input at time 1000 leaves `reconnect_delay = 1` and
`last_message_time = 1000`, refuting the claim that the connection state
is unchanged by the call. -/
theorem decode_error_mutates_connection_state :
    (spot_message_handler
        { current_minute := none, footprint := new_minute_footprint,
          orderflow_history := [], reconnect_delay := 32, last_message_time := 77 }
        1000 .malformed).reconnect_delay = 1 ∧
    (spot_message_handler
        { current_minute := none, footprint := new_minute_footprint,
          orderflow_history := [], reconnect_delay := 32, last_message_time := 77 }
        1000 .malformed).last_message_time = 1000 ∧
    (32 : Nat) ≠ 1 ∧ (77 : Nat) ≠ 1000 := by
  decide

/-- C9 as amended: in the footprint handler every decode failure —
unparseable JSON, or a trade whose price or quantity fails numeric
conversion — discards the message with no mutation of the current window
or the history, but `last_message_time` is set to the receive time and
`reconnect_delay` is reset to 1 before decoding, so exactly those two
connection fields change.  In the order-book handler an undecodable
message leaves the whole state unchanged; a trade message whose quantity
fails the `float` conversion, however, is not side-effect free: before
the error is caught it records the trade side in `last_trade_side` and,
for a previously unseen price, inserts a zeroed `recent_trades` record —
the price levels and the current price stay untouched. -/
theorem decode_error_discards_message (st : TraderState) (now : Nat)
    (ob : OBState) (nowq : ℚ) :
    (spot_message_handler st now .malformed =
      { st with last_message_time := now, reconnect_delay := 1 }) ∧
    (∀ (T : Nat) (q : Option ℚ) (m : Bool),
      spot_message_handler st now (.aggTrade T none q m) =
        { st with last_message_time := now, reconnect_delay := 1 }) ∧
    (∀ (T : Nat) (p : Option ℚ) (m : Bool),
      spot_message_handler st now (.aggTrade T p none m) =
        { st with last_message_time := now, reconnect_delay := 1 }) ∧
    message_handler ob nowq .malformed = ob ∧
    (∀ (price : ℚ) (m : Bool),
      message_handler ob nowq (.aggTradeOB (some price) (some none) m) =
        { ob with
          last_trade_side := some (if m then TradeSide.sell else TradeSide.buy),
          recent_trades :=
            match alook ob.recent_trades price with
            | some _ => ob.recent_trades
            | none => ob.recent_trades ++ [(price, TradeRec.mk 0 0 nowq)] }) := by
  exact ⟨handler_malformed st now,
    fun T q m => handler_bad_price st now T q m,
    fun T p m => handler_bad_qty st now T p m,
    rfl,
    fun price m => rfl⟩

/-! ## Accounting invariants of the live window (C10) -/

def flowsBuySum (flows : Flows) : ℚ := (flows.map (fun e => e.2.buy_volume)).sum

def flowsSellSum (flows : Flows) : ℚ := (flows.map (fun e => e.2.sell_volume)).sum

/-- Trade count recorded at one price level of a window. -/
def countOf (fp : Footprint) (p : Int) : Nat :=
  ((alook fp.order_flows p).getD (FPLevel.mk 0 0 0)).order_count

/-- Mutual consistency of a window's volume aggregates. -/
def VolumesConsistent (fp : Footprint) : Prop :=
  fp.total_volume = fp.buy_volume + fp.sell_volume ∧
  fp.buy_volume = flowsBuySum fp.order_flows ∧
  fp.sell_volume = flowsSellSum fp.order_flows

theorem accumulate_trade_true_eq (fp : Footprint) (p v : ℚ) :
    accumulate_trade fp p v true =
      { fp with
        total_volume := fp.total_volume + v,
        buy_volume := fp.buy_volume + v,
        delta := fp.buy_volume + v - fp.sell_volume,
        order_flows := aset fp.order_flows (pyInt p)
          (FPLevel.mk
            (((alook fp.order_flows (pyInt p)).getD (FPLevel.mk 0 0 0)).buy_volume + v)
            (((alook fp.order_flows (pyInt p)).getD (FPLevel.mk 0 0 0)).sell_volume)
            (((alook fp.order_flows (pyInt p)).getD (FPLevel.mk 0 0 0)).order_count + 1)) } :=
  rfl

theorem accumulate_trade_false_eq (fp : Footprint) (p v : ℚ) :
    accumulate_trade fp p v false =
      { fp with
        total_volume := fp.total_volume + v,
        sell_volume := fp.sell_volume + v,
        delta := fp.buy_volume - (fp.sell_volume + v),
        order_flows := aset fp.order_flows (pyInt p)
          (FPLevel.mk
            (((alook fp.order_flows (pyInt p)).getD (FPLevel.mk 0 0 0)).buy_volume)
            (((alook fp.order_flows (pyInt p)).getD (FPLevel.mk 0 0 0)).sell_volume + v)
            (((alook fp.order_flows (pyInt p)).getD (FPLevel.mk 0 0 0)).order_count + 1)) } :=
  rfl

theorem flowsBuySum_aset (flows : Flows) (k : Int) (l : FPLevel) :
    flowsBuySum (aset flows k l) =
      flowsBuySum flows + l.buy_volume -
        ((alook flows k).getD (FPLevel.mk 0 0 0)).buy_volume := by
  induction flows with
  | nil => simp [aset, flowsBuySum]
  | cons e rest ih =>
    by_cases he : e.1 = k
    · simp only [aset, if_pos he, flowsBuySum, List.map_cons, List.sum_cons,
        alook_cons, he]
      simp
      ring
    · simp only [aset, if_neg he, flowsBuySum, List.map_cons, List.sum_cons,
        alook_cons, if_neg he]
      rw [show (List.map (fun e => e.2.buy_volume) (aset rest k l)).sum
        = flowsBuySum (aset rest k l) from rfl, ih]
      unfold flowsBuySum
      ring

theorem flowsSellSum_aset (flows : Flows) (k : Int) (l : FPLevel) :
    flowsSellSum (aset flows k l) =
      flowsSellSum flows + l.sell_volume -
        ((alook flows k).getD (FPLevel.mk 0 0 0)).sell_volume := by
  induction flows with
  | nil => simp [aset, flowsSellSum]
  | cons e rest ih =>
    by_cases he : e.1 = k
    · simp only [aset, if_pos he, flowsSellSum, List.map_cons, List.sum_cons,
        alook_cons, he]
      simp
      ring
    · simp only [aset, if_neg he, flowsSellSum, List.map_cons, List.sum_cons,
        alook_cons, if_neg he]
      rw [show (List.map (fun e => e.2.sell_volume) (aset rest k l)).sum
        = flowsSellSum (aset rest k l) from rfl, ih]
      unfold flowsSellSum
      ring

theorem volumes_consistent_accumulate (fp : Footprint) (p v : ℚ) (b : Bool)
    (h : VolumesConsistent fp) : VolumesConsistent (accumulate_trade fp p v b) := by
  obtain ⟨ht, hb, hs⟩ := h
  cases b
  · rw [accumulate_trade_false_eq]
    refine ⟨by simpa [ht] using by ring, ?_, ?_⟩
    · simp only [flowsBuySum_aset, hb]
      ring
    · simp only [flowsSellSum_aset, hs]
      ring
  · rw [accumulate_trade_true_eq]
    refine ⟨by simpa [ht] using by ring, ?_, ?_⟩
    · simp only [flowsBuySum_aset, hb]
      ring
    · simp only [flowsSellSum_aset, hs]
      ring

theorem volumes_consistent_open_window (T : Nat) (p : ℚ) :
    VolumesConsistent (open_window T p) := by
  refine ⟨by simp [open_window, new_minute_footprint], ?_, ?_⟩ <;>
    simp [open_window, new_minute_footprint, flowsBuySum, flowsSellSum]

theorem volumes_consistent_update_ohlc (fp : Footprint) (p : ℚ)
    (h : VolumesConsistent fp) : VolumesConsistent (update_ohlc fp p) := h

theorem volumes_consistent_step (st : TraderState) (now : Nat) (msg : RawMsg)
    (h : VolumesConsistent st.footprint) :
    VolumesConsistent (spot_message_handler st now msg).footprint := by
  cases msg with
  | malformed => exact h
  | other => exact h
  | aggTrade T p q m =>
    cases p with
    | none => exact h
    | some price =>
      cases q with
      | none => rw [handler_bad_qty]; exact h
      | some volume =>
        cases hcur : st.current_minute with
        | none =>
          rw [handler_trade_first st now T price volume m hcur]
          exact volumes_consistent_accumulate _ _ _ _
            (volumes_consistent_open_window T price)
        | some k =>
          by_cases hkey : get_minute_str T = k
          · rw [handler_trade_same st now T price volume m k hcur hkey]
            exact volumes_consistent_accumulate _ _ _ _
              (volumes_consistent_update_ohlc st.footprint price h)
          · rw [handler_trade_roll st now T price volume m k hcur hkey]
            exact volumes_consistent_accumulate _ _ _ _
              (volumes_consistent_open_window T price)

theorem volumes_consistent_run (now : Nat) (msgs : List RawMsg) (st : TraderState)
    (h : VolumesConsistent st.footprint) :
    VolumesConsistent (run_messages st now msgs).footprint := by
  induction msgs generalizing st with
  | nil => exact h
  | cons msg rest ih =>
    exact ih _ (volumes_consistent_step st now msg h)

theorem countOf_accumulate (fp : Footprint) (p v : ℚ) (b : Bool) (q : Int) :
    countOf (accumulate_trade fp p v b) q =
      countOf fp q + (if pyInt p = q then 1 else 0) := by
  have key : ∀ l : FPLevel,
      (alook (aset fp.order_flows (pyInt p) l) q).getD (FPLevel.mk 0 0 0) =
        if pyInt p = q then l
        else (alook fp.order_flows q).getD (FPLevel.mk 0 0 0) := by
    intro l
    by_cases hq : pyInt p = q
    · rw [if_pos hq, hq, alook_aset_self]
      rfl
    · rw [if_neg hq, alook_aset_ne _ _ _ _ hq]
  cases b
  · rw [accumulate_trade_false_eq]
    unfold countOf
    simp only [key]
    by_cases hq : pyInt p = q <;> simp [hq]
  · rw [accumulate_trade_true_eq]
    unfold countOf
    simp only [key]
    by_cases hq : pyInt p = q <;> simp [hq]

/-- A trade record as fed to the handler: (timestamp, price, quantity,
buyer-is-maker flag). -/
abbrev TradeRecIn := Nat × ℚ × ℚ × Bool

def trade_msg (tr : TradeRecIn) : RawMsg :=
  .aggTrade tr.1 (some tr.2.1) (some tr.2.2.1) tr.2.2.2

theorem counts_run_same_key (now k : Nat) (trs : List TradeRecIn) :
    ∀ st : TraderState, st.current_minute = some k →
      (∀ tr ∈ trs, get_minute_str tr.1 = k) →
      (run_messages st now (trs.map trade_msg)).current_minute = some k ∧
      ∀ q : Int, countOf (run_messages st now (trs.map trade_msg)).footprint q =
        countOf st.footprint q +
          (trs.filter (fun tr => decide (pyInt tr.2.1 = q))).length := by
  induction trs with
  | nil => exact fun st hcur _ => ⟨hcur, fun q => by simp [run_messages]⟩
  | cons tr rest ih =>
    intro st hcur hkeys
    have hkey : get_minute_str tr.1 = k := hkeys tr (List.mem_cons_self _ _)
    have estep := handler_trade_same st now tr.1 tr.2.1 tr.2.2.1 tr.2.2.2 k hcur hkey
    have hrun : run_messages st now ((tr :: rest).map trade_msg) =
        run_messages (spot_message_handler st now (trade_msg tr)) now
          (rest.map trade_msg) := rfl
    have hcur' : (spot_message_handler st now (trade_msg tr)).current_minute = some k := by
      rw [show trade_msg tr = .aggTrade tr.1 (some tr.2.1) (some tr.2.2.1) tr.2.2.2 from rfl,
        estep]
      exact hcur
    obtain ⟨hc, hcount⟩ := ih (spot_message_handler st now (trade_msg tr)) hcur'
      (fun t ht => hkeys t (List.mem_cons_of_mem _ ht))
    refine ⟨by rw [hrun]; exact hc, fun q => ?_⟩
    rw [hrun, hcount q]
    have hfp : (spot_message_handler st now (trade_msg tr)).footprint =
        accumulate_trade (update_ohlc st.footprint tr.2.1) tr.2.1 tr.2.2.1 (!tr.2.2.2) := by
      rw [show trade_msg tr = .aggTrade tr.1 (some tr.2.1) (some tr.2.2.1) tr.2.2.2 from rfl,
        estep]
    rw [hfp, countOf_accumulate]
    have hohlc : countOf (update_ohlc st.footprint tr.2.1) q = countOf st.footprint q := rfl
    rw [hohlc]
    by_cases hq : pyInt tr.2.1 = q
    · simp [List.filter_cons, hq]
      omega
    · simp [List.filter_cons, hq]

/-- C10: after every trade accumulated into the current window, the
window's aggregates are mutually consistent — `total_volume` equals
`buy_volume + sell_volume`, `buy_volume` (resp. `sell_volume`) equals the
sum of the per-level buy (resp. sell) volumes, and each level's
`order_count` equals the number of trades of the window bucketed to that
level (stated over a run of same-bucket trades from the fresh trader; the
volume equalities are stated over an arbitrary message sequence). -/
theorem accounting_invariant (now now' : Nat) (msgs : List RawMsg)
    (tr0 : TradeRecIn) (trs : List TradeRecIn)
    (hsame : ∀ tr ∈ trs, get_minute_str tr.1 = get_minute_str tr0.1) :
    ((run_messages initial_state now msgs).footprint.total_volume =
        (run_messages initial_state now msgs).footprint.buy_volume +
          (run_messages initial_state now msgs).footprint.sell_volume ∧
      (run_messages initial_state now msgs).footprint.buy_volume =
        flowsBuySum (run_messages initial_state now msgs).footprint.order_flows ∧
      (run_messages initial_state now msgs).footprint.sell_volume =
        flowsSellSum (run_messages initial_state now msgs).footprint.order_flows) ∧
    ∀ q : Int,
      countOf (run_messages initial_state now' ((tr0 :: trs).map trade_msg)).footprint q =
        (((tr0 :: trs)).filter (fun tr => decide (pyInt tr.2.1 = q))).length := by
  constructor
  · exact volumes_consistent_run now msgs initial_state
      ⟨by simp [initial_state, new_minute_footprint],
       by simp [initial_state, new_minute_footprint, flowsBuySum],
       by simp [initial_state, new_minute_footprint, flowsSellSum]⟩
  · intro q
    have h0 : initial_state.current_minute = none := rfl
    have e0 := handler_trade_first initial_state now' tr0.1 tr0.2.1 tr0.2.2.1 tr0.2.2.2 h0
    have hrun : run_messages initial_state now' ((tr0 :: trs).map trade_msg) =
        run_messages (spot_message_handler initial_state now' (trade_msg tr0)) now'
          (trs.map trade_msg) := rfl
    have hcur1 : (spot_message_handler initial_state now' (trade_msg tr0)).current_minute =
        some (get_minute_str tr0.1) := by
      rw [show trade_msg tr0 =
        .aggTrade tr0.1 (some tr0.2.1) (some tr0.2.2.1) tr0.2.2.2 from rfl, e0]
    obtain ⟨_, hcount⟩ := counts_run_same_key now' (get_minute_str tr0.1) trs
      (spot_message_handler initial_state now' (trade_msg tr0)) hcur1 hsame
    rw [hrun, hcount q]
    have hfp0 : (spot_message_handler initial_state now' (trade_msg tr0)).footprint =
        accumulate_trade (open_window tr0.1 tr0.2.1) tr0.2.1 tr0.2.2.1 (!tr0.2.2.2) := by
      rw [show trade_msg tr0 =
        .aggTrade tr0.1 (some tr0.2.1) (some tr0.2.2.1) tr0.2.2.2 from rfl, e0]
    rw [hfp0, countOf_accumulate]
    have hzero : countOf (open_window tr0.1 tr0.2.1) q = 0 := rfl
    rw [hzero]
    by_cases hq : pyInt tr0.2.1 = q
    · simp [List.filter_cons, hq]
      omega
    · simp [List.filter_cons, hq]

/-- Witness for `accounting_invariant`: two buys and one sell at prices
bucketing to 10 and 11 inside bucket 0. -/
theorem accounting_invariant_witness :
    countOf (run_messages initial_state 5
        (([(0, 10, 1, false), (1, 10, 2, true), (2, 11, 1, false)] :
          List TradeRecIn).map trade_msg)).footprint 10 =
      (([(0, 10, 1, false), (1, 10, 2, true), (2, 11, 1, false)] :
        List TradeRecIn).filter (fun tr => decide (pyInt tr.2.1 = 10))).length := by
  have h := accounting_invariant 5 5 [] (0, 10, 1, false)
    [(1, 10, 2, true), (2, 11, 1, false)] (by decide)
  exact h.2 10

/-! ## Consecutive imbalance detection
(`check_consecutive_imbalances`, `footprint.py` lines 647-683) -/

inductive Dir : Type
  | long
  | short
deriving DecidableEq

/-- Embedding of the nested `imbalance_direction` helper: a level is
long-imbalanced when buys exceed three times the sells with sells
positive, short-imbalanced symmetrically, neutral otherwise. -/
def imbalance_direction (b s : ℚ) : Option Dir :=
  if 3 * s < b ∧ 0 < s then some .long
  else if 3 * b < s ∧ 0 < b then some .short
  else none

def buyAt (flows : Flows) (p : Int) : ℚ :=
  ((alook flows p).getD (FPLevel.mk 0 0 0)).buy_volume

def sellAt (flows : Flows) (p : Int) : ℚ :=
  ((alook flows p).getD (FPLevel.mk 0 0 0)).sell_volume

def levelDir (flows : Flows) (p : Int) : Option Dir :=
  imbalance_direction (buyAt flows p) (sellAt flows p)

/-- One iteration of the source's scan: the three prices must be
consecutive integers and all three levels imbalanced in one direction. -/
def tripleOk (flows : Flows) (p1 p2 p3 : Int) : Bool :=
  decide (p2 = p1 + 1) && decide (p3 = p2 + 1) &&
    (match levelDir flows p1, levelDir flows p2, levelDir flows p3 with
     | some d1, some d2, some d3 => decide (d1 = d2) && decide (d2 = d3)
     | _, _, _ => false)

/-- The source's `for i in range(len(price_levels) - 2)` loop over the
sorted price list, returning whether any window of three adjacent sorted
prices qualifies. -/
def scanTriples (flows : Flows) : List Int → Bool
  | p1 :: p2 :: p3 :: rest =>
    tripleOk flows p1 p2 p3 || scanTriples flows (p2 :: p3 :: rest)
  | _ => false

/-- Embedding of `check_consecutive_imbalances` (`footprint.py` lines
647-683): the window's price keys are sorted ascending and scanned for a
qualifying triple. -/
def check_consecutive_imbalances (fp : Footprint) : Bool :=
  scanTriples fp.order_flows
    (List.insertionSort (· ≤ ·) (fp.order_flows.map Prod.fst))

/-- Three consecutive prices all imbalanced in one common direction. -/
def dirRun (flows : Flows) (p : Int) : Prop :=
  ∃ d : Dir, levelDir flows p = some d ∧ levelDir flows (p + 1) = some d ∧
    levelDir flows (p + 2) = some d

theorem tripleOk_iff (flows : Flows) (p1 p2 p3 : Int) :
    tripleOk flows p1 p2 p3 = true ↔
      p2 = p1 + 1 ∧ p3 = p2 + 1 ∧
        ∃ d : Dir, levelDir flows p1 = some d ∧ levelDir flows p2 = some d ∧
          levelDir flows p3 = some d := by
  unfold tripleOk
  cases h1 : levelDir flows p1 with
  | none => simp [h1]
  | some d1 =>
    cases h2 : levelDir flows p2 with
    | none => simp [h2]
    | some d2 =>
      cases h3 : levelDir flows p3 with
      | none => simp [h3]
      | some d3 =>
        show (decide (p2 = p1 + 1) && decide (p3 = p2 + 1) &&
          (decide (d1 = d2) && decide (d2 = d3))) = true ↔ _
        simp only [Bool.and_eq_true, decide_eq_true_eq]
        constructor
        · rintro ⟨⟨ha, hb⟩, h12, h23⟩
          exact ⟨ha, hb, d1, rfl, congrArg some h12.symm,
            congrArg some (h12.trans h23).symm⟩
        · rintro ⟨ha, hb, d, hd1, hd2, hd3⟩
          have e1 : d1 = d := Option.some.inj hd1
          have e2 : d2 = d := Option.some.inj hd2
          have e3 : d3 = d := Option.some.inj hd3
          exact ⟨⟨ha, hb⟩, e1.trans e2.symm, e2.trans e3.symm⟩

theorem scanTriples_iff (flows : Flows) (l : List Int) :
    scanTriples flows l = true ↔
      ∃ (l1 : List Int) (p : Int) (l2 : List Int),
        l = l1 ++ p :: (p + 1) :: (p + 2) :: l2 ∧ dirRun flows p := by
  induction l with
  | nil =>
    constructor
    · intro h
      exact absurd h (by simp [scanTriples])
    · rintro ⟨l1, p, l2, heq, -⟩
      have := congrArg List.length heq
      simp only [List.length_nil, List.length_append, List.length_cons] at this
      omega
  | cons a tl ih =>
    cases tl with
    | nil =>
      constructor
      · intro h
        exact absurd h (by simp [scanTriples])
      · rintro ⟨l1, p, l2, heq, -⟩
        have := congrArg List.length heq
        simp at this
        omega
    | cons b tl2 =>
      cases tl2 with
      | nil =>
        constructor
        · intro h
          exact absurd h (by simp [scanTriples])
        · rintro ⟨l1, p, l2, heq, -⟩
          have := congrArg List.length heq
          simp at this
          omega
      | cons c r =>
        show (tripleOk flows a b c || scanTriples flows (b :: c :: r)) = true ↔ _
        rw [Bool.or_eq_true]
        constructor
        · rintro (h | h)
          · obtain ⟨hb, hc, d, hd1, hd2, hd3⟩ := (tripleOk_iff flows a b c).mp h
            have hc2 : c = a + 2 := by omega
            refine ⟨[], a, r, by rw [hb, hc2]; rfl, d, hd1, ?_, ?_⟩
            · rw [← hb]; exact hd2
            · rw [← hc2]; exact hd3
          · obtain ⟨l1, p, l2, heq, hd⟩ := ih.mp h
            exact ⟨a :: l1, p, l2, by rw [List.cons_append, ← heq], hd⟩
        · rintro ⟨l1, p, l2, heq, hd⟩
          cases l1 with
          | nil =>
            simp only [List.nil_append] at heq
            injection heq with e1 heq
            injection heq with e2 heq
            injection heq with e3 _
            left
            refine (tripleOk_iff flows a b c).mpr ⟨by omega, by omega, ?_⟩
            obtain ⟨d, hd1, hd2, hd3⟩ := hd
            exact ⟨d, by rw [e1]; exact hd1, by rw [e2]; exact hd2,
              by rw [e3]; exact hd3⟩
          | cons x l1' =>
            rw [List.cons_append] at heq
            injection heq with _ heq
            right
            exact ih.mpr ⟨l1', p, l2, heq, hd⟩

theorem sorted_lt_triple_infix :
    ∀ l : List Int, l.Sorted (· < ·) → ∀ p : Int, p ∈ l → p + 1 ∈ l → p + 2 ∈ l →
      ∃ l1 l2, l = l1 ++ p :: (p + 1) :: (p + 2) :: l2 := by
  intro l
  induction l with
  | nil =>
    intro _ p h1 _ _
    simp at h1
  | cons a xs ih =>
    intro hs p h1 h2 h3
    rw [List.sorted_cons] at hs
    obtain ⟨ha, hs'⟩ := hs
    by_cases hap : a = p
    · subst hap
      have h2' : a + 1 ∈ xs := by
        rcases List.mem_cons.mp h2 with h | h
        · exact absurd h (by omega)
        · exact h
      cases xs with
      | nil => simp at h2'
      | cons z zs =>
        have hz : z = a + 1 := by
          rcases List.mem_cons.mp h2' with h | h
          · omega
          · have hz1 : z < a + 1 := (List.sorted_cons.mp hs').1 _ h
            have hz2 : a < z := ha z (List.mem_cons_self _ _)
            omega
        subst hz
        have h3' : a + 2 ∈ zs := by
          rcases List.mem_cons.mp h3 with h | h
          · exact absurd h (by omega)
          · rcases List.mem_cons.mp h with h' | h'
            · exact absurd h' (by omega)
            · exact h'
        cases zs with
        | nil => simp at h3'
        | cons w ws =>
          have hw : w = a + 2 := by
            rcases List.mem_cons.mp h3' with h | h
            · omega
            · have hw1 : w < a + 2 :=
                (List.sorted_cons.mp (List.sorted_cons.mp hs').2).1 _ h
              have hw2 : a + 1 < w :=
                (List.sorted_cons.mp hs').1 w (List.mem_cons_self _ _)
              omega
          subst hw
          exact ⟨[], ws, rfl⟩
    · have hp : p ∈ xs := by
        rcases List.mem_cons.mp h1 with h | h
        · exact absurd h.symm hap
        · exact h
      have hap' : a < p := ha p hp
      have hp1 : p + 1 ∈ xs := by
        rcases List.mem_cons.mp h2 with h | h
        · exact absurd h (by omega)
        · exact h
      have hp2 : p + 2 ∈ xs := by
        rcases List.mem_cons.mp h3 with h | h
        · exact absurd h (by omega)
        · exact h
      obtain ⟨l1, l2, heq⟩ := ih hs' p hp hp1 hp2
      exact ⟨a :: l1, l2, by rw [heq, List.cons_append]⟩

theorem levelDir_long_iff (flows : Flows) (p : Int) :
    levelDir flows p = some .long ↔
      3 * sellAt flows p < buyAt flows p ∧ 0 < sellAt flows p := by
  unfold levelDir imbalance_direction
  by_cases h : 3 * sellAt flows p < buyAt flows p ∧ 0 < sellAt flows p
  · simp [h]
  · rw [if_neg h]
    by_cases h2 : 3 * buyAt flows p < sellAt flows p ∧ 0 < buyAt flows p
    · simp [h2, h]
    · simp [h2, h]

theorem levelDir_short_iff (flows : Flows) (p : Int) :
    levelDir flows p = some .short ↔
      3 * buyAt flows p < sellAt flows p ∧ 0 < buyAt flows p := by
  unfold levelDir imbalance_direction
  by_cases h : 3 * sellAt flows p < buyAt flows p ∧ 0 < sellAt flows p
  · rw [if_pos h]
    constructor
    · intro hc
      exact absurd hc (by simp)
    · rintro ⟨hc1, hc2⟩
      exfalso
      have := h.1
      linarith
  · rw [if_neg h]
    by_cases h2 : 3 * buyAt flows p < sellAt flows p ∧ 0 < buyAt flows p
    · simp [h2]
    · simp [h2]

theorem dirRun_iff (flows : Flows) (p : Int) :
    dirRun flows p ↔
      ((∀ i ∈ [p, p + 1, p + 2],
          3 * sellAt flows i < buyAt flows i ∧ 0 < sellAt flows i) ∨
       (∀ i ∈ [p, p + 1, p + 2],
          3 * buyAt flows i < sellAt flows i ∧ 0 < buyAt flows i)) := by
  constructor
  · rintro ⟨d, hd1, hd2, hd3⟩
    cases d
    · left
      intro i hi
      rcases List.mem_cons.mp hi with rfl | hi
      · exact (levelDir_long_iff flows i).mp hd1
      rcases List.mem_cons.mp hi with rfl | hi
      · exact (levelDir_long_iff flows (p + 1)).mp hd2
      rcases List.mem_cons.mp hi with rfl | hi
      · exact (levelDir_long_iff flows (p + 2)).mp hd3
      · simp at hi
    · right
      intro i hi
      rcases List.mem_cons.mp hi with rfl | hi
      · exact (levelDir_short_iff flows i).mp hd1
      rcases List.mem_cons.mp hi with rfl | hi
      · exact (levelDir_short_iff flows (p + 1)).mp hd2
      rcases List.mem_cons.mp hi with rfl | hi
      · exact (levelDir_short_iff flows (p + 2)).mp hd3
      · simp at hi
  · rintro (h | h)
    · exact ⟨.long,
        (levelDir_long_iff flows p).mpr (h p (by simp)),
        (levelDir_long_iff flows (p + 1)).mpr (h (p + 1) (by simp)),
        (levelDir_long_iff flows (p + 2)).mpr (h (p + 2) (by simp))⟩
    · exact ⟨.short,
        (levelDir_short_iff flows p).mpr (h p (by simp)),
        (levelDir_short_iff flows (p + 1)).mpr (h (p + 1) (by simp)),
        (levelDir_short_iff flows (p + 2)).mpr (h (p + 2) (by simp))⟩

/-- C6: `check_consecutive_imbalances` reports a run iff the current
window has levels at three consecutive integer prices p, p+1, p+2 such
that at each of them one side's volume strictly exceeds three times the
other side's with the smaller side positive, the dominant side being the
same at all three; in particular a gap between otherwise-qualifying
levels yields no detection. -/
theorem consecutive_imbalance_iff (fp : Footprint)
    (hnd : (fp.order_flows.map Prod.fst).Nodup) :
    check_consecutive_imbalances fp = true ↔
      ∃ p : Int,
        p ∈ fp.order_flows.map Prod.fst ∧
        p + 1 ∈ fp.order_flows.map Prod.fst ∧
        p + 2 ∈ fp.order_flows.map Prod.fst ∧
        ((∀ i ∈ [p, p + 1, p + 2],
            3 * sellAt fp.order_flows i < buyAt fp.order_flows i ∧
              0 < sellAt fp.order_flows i) ∨
         (∀ i ∈ [p, p + 1, p + 2],
            3 * buyAt fp.order_flows i < sellAt fp.order_flows i ∧
              0 < buyAt fp.order_flows i)) := by
  unfold check_consecutive_imbalances
  rw [scanTriples_iff]
  have hperm : List.Perm (List.insertionSort (· ≤ ·) (fp.order_flows.map Prod.fst))
      (fp.order_flows.map Prod.fst) := List.perm_insertionSort _ _
  have hnds : (List.insertionSort (· ≤ ·) (fp.order_flows.map Prod.fst)).Nodup :=
    hperm.nodup_iff.mpr hnd
  have hsorted :
      List.Sorted (· < ·)
        (List.insertionSort (· ≤ ·) (fp.order_flows.map Prod.fst)) :=
    (List.sorted_insertionSort _ _).lt_of_le hnds
  constructor
  · rintro ⟨l1, p, l2, heq, hd⟩
    refine ⟨p, ?_, ?_, ?_, (dirRun_iff fp.order_flows p).mp hd⟩ <;>
      rw [← hperm.mem_iff] <;> rw [heq] <;> simp
  · rintro ⟨p, h1, h2, h3, hcond⟩
    obtain ⟨l1, l2, heq⟩ := sorted_lt_triple_infix _ hsorted p
      (hperm.mem_iff.mpr h1) (hperm.mem_iff.mpr h2) (hperm.mem_iff.mpr h3)
    exact ⟨l1, p, l2, heq, (dirRun_iff fp.order_flows p).mpr hcond⟩

/-- Witness for `consecutive_imbalance_iff`: the spec's example — levels
at 100, 101, 102 with buy/sell volumes (10,1), (12,1), (9,1) — is
detected as a buy-side run. -/
theorem consecutive_imbalance_iff_witness :
    check_consecutive_imbalances
      { new_minute_footprint with
        order_flows :=
          [(100, FPLevel.mk 10 1 1), (101, FPLevel.mk 12 1 1),
           (102, FPLevel.mk 9 1 1)] } = true := by
  refine (consecutive_imbalance_iff
    { new_minute_footprint with
      order_flows :=
        [(100, FPLevel.mk 10 1 1), (101, FPLevel.mk 12 1 1),
         (102, FPLevel.mk 9 1 1)] } (by decide)).mpr
    ⟨100, by decide, by decide, by decide, Or.inl ?_⟩
  intro i hi
  rcases List.mem_cons.mp hi with rfl | hi
  · constructor <;> norm_num [buyAt, sellAt, alook]
  rcases List.mem_cons.mp hi with rfl | hi
  · constructor <;> norm_num [buyAt, sellAt, alook]
  rcases List.mem_cons.mp hi with rfl | hi
  · constructor <;> norm_num [buyAt, sellAt, alook]
  · simp at hi

/-! ## Support / resistance analysis
(`analyze_support_resistance`, `footprint.py` lines 515-586) -/

def sr_volume_threshold : ℚ := 1 / 10

def sr_price_range : Int := 5

def level_total (l : FPLevel) : ℚ := l.buy_volume + l.sell_volume

/-- Embedding of the `price_volumes` dict built by the source's first loop
(`footprint.py` lines 521-530): per-price total volume aggregated over all
history windows, in dict insertion order. -/
def price_volumes_of (hist : List Footprint) : List (Int × ℚ) :=
  hist.foldl
    (fun pv fp => fp.order_flows.foldl
      (fun pv e => aset pv e.1 ((alook pv e.1).getD 0 + level_total e.2)) pv)
    []

/-- The `total_volume` accumulator of the same loop; the source increments
it alongside `price_volumes`, which is split into a second fold computing
the identical value. -/
def total_volume_of (hist : List Footprint) : ℚ :=
  hist.foldl
    (fun t fp => fp.order_flows.foldl (fun t e => t + level_total e.2) t) 0

/-- Aggregated buy volume at one price bucket over the whole history
(`footprint.py` lines 539-542). -/
def agg_buy (hist : List Footprint) (p : Int) : ℚ :=
  (hist.map (fun fp =>
    ((alook fp.order_flows p).getD (FPLevel.mk 0 0 0)).buy_volume)).sum

/-- Aggregated sell volume at one price bucket over the whole history
(`footprint.py` lines 543-546). -/
def agg_sell (hist : List Footprint) (p : Int) : ℚ :=
  (hist.map (fun fp =>
    ((alook fp.order_flows p).getD (FPLevel.mk 0 0 0)).sell_volume)).sum

/-- One entry of the source's `significant_levels` list; the Chinese
`'支撑'` / `'压力'` classification strings become the Boolean `support`. -/
structure SigLevel where
  price : Int
  volume : ℚ
  support : Bool
  buy_ratio : ℚ
deriving DecidableEq

/-- One merged zone of the source's `merged_levels` list. -/
structure SRZone where
  price : Int
  volume : ℚ
  support : Bool
  strength : ℚ
deriving DecidableEq

/-- The source's significance filter and per-level classification
(`footprint.py` lines 532-554). -/
def significant_levels_of (hist : List Footprint) : List SigLevel :=
  ((price_volumes_of hist).filter
      (fun e => decide (total_volume_of hist * sr_volume_threshold ≤ e.2))).map
    (fun e =>
      { price := e.1, volume := e.2,
        support := decide (agg_sell hist e.1 < agg_buy hist e.1),
        buy_ratio :=
          if 0 < agg_buy hist e.1 + agg_sell hist e.1 then
            agg_buy hist e.1 / (agg_buy hist e.1 + agg_sell hist e.1)
          else 0 })

/-- The source's greedy merge loop (`footprint.py` lines 557-583): the
anchor level absorbs every following level within `sr_price_range` of the
anchor's price, the zone is classified by the volume-weighted average buy
ratio, and the scan resumes at the first level out of range. -/
def merge_zones (total : ℚ) : List SigLevel → List SRZone
  | [] => []
  | c :: rest =>
    { price := c.price,
      volume := c.volume +
        ((rest.takeWhile (fun l => decide (l.price - c.price ≤ sr_price_range))).map
          (fun l => l.volume)).sum,
      support := decide ((1 : ℚ) / 2 <
        (c.buy_ratio * c.volume +
          ((rest.takeWhile (fun l => decide (l.price - c.price ≤ sr_price_range))).map
            (fun l => l.buy_ratio * l.volume)).sum) /
        (c.volume +
          ((rest.takeWhile (fun l => decide (l.price - c.price ≤ sr_price_range))).map
            (fun l => l.volume)).sum)),
      strength := (c.volume +
        ((rest.takeWhile (fun l => decide (l.price - c.price ≤ sr_price_range))).map
          (fun l => l.volume)).sum) / total } ::
      merge_zones total
        (rest.dropWhile (fun l => decide (l.price - c.price ≤ sr_price_range)))
termination_by l => l.length
decreasing_by
  exact Nat.lt_succ_of_le (List.Sublist.length_le (List.dropWhile_sublist _))

/-- Embedding of `analyze_support_resistance` (`footprint.py` lines
515-586): empty history yields no zones, otherwise the significant levels
are sorted ascending by price and greedily merged. -/
def analyze_support_resistance (hist : List Footprint) : List SRZone :=
  match hist with
  | [] => []
  | _ =>
    merge_zones (total_volume_of hist)
      (List.insertionSort (fun a b => a.price ≤ b.price) (significant_levels_of hist))

/-! ### Specification-side formulation of the same analysis -/

/-- Price buckets appearing anywhere in the history, first occurrence
first. -/
def history_prices (hist : List Footprint) : List Int :=
  (hist.flatMap (fun fp => fp.order_flows.map Prod.fst)).dedup

/-- Aggregated total volume of one bucket over the whole history. -/
def bucket_volume (hist : List Footprint) (p : Int) : ℚ :=
  agg_buy hist p + agg_sell hist p

/-- The spec's significant buckets: those whose aggregated volume reaches
`volumeShare ×` the total history volume, in ascending price order. -/
def spec_significant_prices (hist : List Footprint) : List Int :=
  List.insertionSort (· ≤ ·)
    ((history_prices hist).filter
      (fun p => decide (total_volume_of hist * sr_volume_threshold ≤
        bucket_volume hist p)))

/-- The spec's greedy left-to-right merge over significant buckets: a
bucket joins the current zone iff its price is within `mergeRange` of the
zone's anchor (first) bucket's price; the zone is support iff its
volume-weighted buy ratio — total buy volume over total volume of the
merged buckets — exceeds one half, and its strength is the merged volume
divided by the total history volume. -/
def spec_merge (hist : List Footprint) (total : ℚ) : List Int → List SRZone
  | [] => []
  | p :: ps =>
    { price := p,
      volume := ((p :: ps.takeWhile (fun q => decide (q - p ≤ sr_price_range))).map
        (fun q => bucket_volume hist q)).sum,
      support := decide ((1 : ℚ) / 2 <
        (((p :: ps.takeWhile (fun q => decide (q - p ≤ sr_price_range))).map
          (fun q => agg_buy hist q)).sum) /
        (((p :: ps.takeWhile (fun q => decide (q - p ≤ sr_price_range))).map
          (fun q => bucket_volume hist q)).sum)),
      strength := (((p :: ps.takeWhile (fun q => decide (q - p ≤ sr_price_range))).map
        (fun q => bucket_volume hist q)).sum) / total } ::
      spec_merge hist total (ps.dropWhile (fun q => decide (q - p ≤ sr_price_range)))
termination_by l => l.length
decreasing_by
  exact Nat.lt_succ_of_le (List.Sublist.length_le (List.dropWhile_sublist _))

/-- The claim's reading of `analyze_support_resistance`, assembled from
the spec's words. -/
def supportResistanceSpec (hist : List Footprint) : List SRZone :=
  spec_merge hist (total_volume_of hist) (spec_significant_prices hist)

/-! ### The price/volume dict characterized -/

/-- History flattened to (bucket, level volume) pairs in iteration
order. -/
def entriesOf (hist : List Footprint) : List (Int × ℚ) :=
  hist.flatMap (fun fp => fp.order_flows.map (fun e => (e.1, level_total e.2)))

/-- Total of the values carried by one key of an entry list. -/
def sumKey (l : List (Int × ℚ)) (p : Int) : ℚ :=
  ((l.filter (fun e => decide (e.1 = p))).map Prod.snd).sum

@[simp] theorem sumKey_nil (p : Int) : sumKey [] p = 0 := rfl

theorem sumKey_cons (e : Int × ℚ) (l : List (Int × ℚ)) (p : Int) :
    sumKey (e :: l) p = (if e.1 = p then e.2 else 0) + sumKey l p := by
  by_cases he : e.1 = p <;> simp [sumKey, List.filter_cons, he]

theorem sumKey_append (l1 l2 : List (Int × ℚ)) (p : Int) :
    sumKey (l1 ++ l2) p = sumKey l1 p + sumKey l2 p := by
  simp [sumKey, List.filter_append]

theorem sumKey_eq_zero (l : List (Int × ℚ)) (p : Int)
    (h : p ∉ l.map Prod.fst) : sumKey l p = 0 := by
  induction l with
  | nil => rfl
  | cons e rest ih =>
    simp only [List.map_cons, List.mem_cons] at h
    push_neg at h
    rw [sumKey_cons, if_neg (fun hc => h.1 hc.symm), ih h.2, add_zero]

theorem price_volumes_flatten (hist : List Footprint) :
    price_volumes_of hist = (entriesOf hist).foldl
      (fun pv e => aset pv e.1 ((alook pv e.1).getD 0 + e.2)) [] := by
  suffices h : ∀ acc : List (Int × ℚ),
      hist.foldl
        (fun pv fp => fp.order_flows.foldl
          (fun pv e => aset pv e.1 ((alook pv e.1).getD 0 + level_total e.2)) pv) acc =
      (entriesOf hist).foldl
        (fun pv e => aset pv e.1 ((alook pv e.1).getD 0 + e.2)) acc from h []
  induction hist with
  | nil => intro acc; rfl
  | cons fp rest ih =>
    intro acc
    show rest.foldl _ (fp.order_flows.foldl _ acc) = _
    rw [ih]
    have : entriesOf (fp :: rest) =
        fp.order_flows.map (fun e => (e.1, level_total e.2)) ++ entriesOf rest := by
      simp [entriesOf]
    rw [this, List.foldl_append, List.foldl_map]

theorem foldl_add_level (flows : Flows) (t : ℚ) :
    flows.foldl (fun t e => t + level_total e.2) t =
      t + (flows.map (fun e => level_total e.2)).sum := by
  induction flows generalizing t with
  | nil => simp
  | cons e rest ih =>
    simp only [List.foldl_cons, List.map_cons, List.sum_cons, ih]
    ring

theorem total_volume_flatten (hist : List Footprint) :
    total_volume_of hist = ((entriesOf hist).map Prod.snd).sum := by
  suffices h : ∀ t : ℚ,
      hist.foldl (fun t fp => fp.order_flows.foldl
        (fun t e => t + level_total e.2) t) t =
      t + ((entriesOf hist).map Prod.snd).sum by
    have := h 0
    simpa [total_volume_of] using this
  induction hist with
  | nil => intro t; simp [entriesOf]
  | cons fp rest ih =>
    intro t
    show rest.foldl _ (fp.order_flows.foldl _ t) = _
    rw [ih, foldl_add_level]
    have : entriesOf (fp :: rest) =
        fp.order_flows.map (fun e => (e.1, level_total e.2)) ++ entriesOf rest := by
      simp [entriesOf]
    rw [this, List.map_append, List.sum_append]
    have hc : List.map Prod.snd
        (List.map (fun e => (e.1, level_total e.2)) fp.order_flows) =
          List.map (fun e => level_total e.2) fp.order_flows := by
      rw [List.map_map]
      rfl
    rw [hc]
    ring

theorem pvgo_some (l : List (Int × ℚ)) :
    ∀ (acc : List (Int × ℚ)) (p : Int) (w : ℚ), alook acc p = some w →
      alook (l.foldl (fun pv e => aset pv e.1 ((alook pv e.1).getD 0 + e.2)) acc) p =
        some (w + sumKey l p) := by
  induction l with
  | nil =>
    intro acc p w h
    simpa using h
  | cons e rest ih =>
    intro acc p w h
    show alook (rest.foldl _ (aset acc e.1 ((alook acc e.1).getD 0 + e.2))) p = _
    by_cases he : e.1 = p
    · have hval : alook (aset acc e.1 ((alook acc e.1).getD 0 + e.2)) p =
          some (w + e.2) := by
        rw [← he, alook_aset_self, he, h]
        rfl
      rw [ih _ p (w + e.2) hval, sumKey_cons, if_pos he]
      exact congrArg some (by ring)
    · have hval : alook (aset acc e.1 ((alook acc e.1).getD 0 + e.2)) p = some w := by
        rw [alook_aset_ne _ _ _ _ he, h]
      rw [ih _ p w hval, sumKey_cons, if_neg he, zero_add]

theorem pvgo_none (l : List (Int × ℚ)) :
    ∀ (acc : List (Int × ℚ)) (p : Int), alook acc p = none →
      alook (l.foldl (fun pv e => aset pv e.1 ((alook pv e.1).getD 0 + e.2)) acc) p =
        if p ∈ l.map Prod.fst then some (sumKey l p) else none := by
  induction l with
  | nil =>
    intro acc p h
    simpa using h
  | cons e rest ih =>
    intro acc p h
    show alook (rest.foldl _ (aset acc e.1 ((alook acc e.1).getD 0 + e.2))) p = _
    by_cases he : e.1 = p
    · have hval : alook (aset acc e.1 ((alook acc e.1).getD 0 + e.2)) p =
          some ((alook acc e.1).getD 0 + e.2) := by
        rw [← he, alook_aset_self]
      have hzero : (alook acc e.1).getD 0 = 0 := by
        rw [he, h]
        rfl
      have hm : p ∈ (e :: rest).map Prod.fst := by
        rw [List.map_cons]
        exact List.mem_cons.mpr (Or.inl he.symm)
      rw [pvgo_some rest _ p _ hval, hzero, if_pos hm, sumKey_cons, if_pos he]
      exact congrArg some (by ring)
    · have hval : alook (aset acc e.1 ((alook acc e.1).getD 0 + e.2)) p = none := by
        rw [alook_aset_ne _ _ _ _ he, h]
      rw [ih _ p hval]
      by_cases hm : p ∈ rest.map Prod.fst
      · have hm2 : p ∈ (e :: rest).map Prod.fst := by
          rw [List.map_cons]
          exact List.mem_cons_of_mem _ hm
        rw [if_pos hm, if_pos hm2, sumKey_cons, if_neg he, zero_add]
      · have hm2 : p ∉ (e :: rest).map Prod.fst := by
          rw [List.map_cons]
          intro hc
          rcases List.mem_cons.mp hc with hc' | hc'
          · exact he hc'.symm
          · exact hm hc'
        rw [if_neg hm, if_neg hm2]

theorem pv_alook (hist : List Footprint) (p : Int) :
    alook (price_volumes_of hist) p =
      if p ∈ (entriesOf hist).map Prod.fst
      then some (sumKey (entriesOf hist) p) else none := by
  rw [price_volumes_flatten]
  exact pvgo_none _ [] p rfl

theorem pv_keys_nodup (hist : List Footprint) :
    (akeys (price_volumes_of hist)).Nodup := by
  rw [price_volumes_flatten]
  suffices h : ∀ (l : List (Int × ℚ)) (acc : List (Int × ℚ)), (akeys acc).Nodup →
      (akeys (l.foldl (fun pv e => aset pv e.1 ((alook pv e.1).getD 0 + e.2)) acc)).Nodup by
    exact h _ [] (by simp [akeys])
  intro l
  induction l with
  | nil => intro acc hacc; exact hacc
  | cons e rest ih =>
    intro acc hacc
    exact ih _ (nodup_keys_aset _ _ _ hacc)

theorem alook_of_mem_nodup {α β : Type} [DecidableEq α] :
    ∀ (l : List (α × β)) (k : α) (v : β), (akeys l).Nodup → (k, v) ∈ l →
      alook l k = some v := by
  intro l
  induction l with
  | nil => intro k v _ hm; simp at hm
  | cons e rest ih =>
    intro k v hnd hm
    simp only [akeys, List.map_cons, List.nodup_cons] at hnd
    rcases List.mem_cons.mp hm with h | h
    · rw [← h]
      simp [alook]
    · have hk : k ∈ rest.map Prod.fst := List.mem_map.mpr ⟨(k, v), h, rfl⟩
      have hne : e.1 ≠ k := fun hc => hnd.1 (hc ▸ hk)
      simp only [alook_cons, if_neg hne]
      exact ih k v hnd.2 h

theorem alook_some_mem {α β : Type} [DecidableEq α] :
    ∀ (l : List (α × β)) (k : α) (v : β), alook l k = some v → (k, v) ∈ l := by
  intro l
  induction l with
  | nil => intro k v h; simp at h
  | cons e rest ih =>
    intro k v h
    by_cases he : e.1 = k
    · simp only [alook_cons, if_pos he] at h
      rcases e with ⟨ek, ev⟩
      cases he
      cases h
      exact List.mem_cons_self _ _
    · simp only [alook_cons, if_neg he] at h
      exact List.mem_cons_of_mem _ (ih k v h)

theorem sum_map_add {α : Type} (l : List α) (f g : α → ℚ) :
    (l.map (fun x => f x + g x)).sum = (l.map f).sum + (l.map g).sum := by
  induction l with
  | nil => simp
  | cons x rest ih =>
    simp only [List.map_cons, List.sum_cons, ih]
    ring

theorem sumKey_window (p : Int) :
    ∀ flows : Flows, (flows.map Prod.fst).Nodup →
      sumKey (flows.map (fun e => (e.1, level_total e.2))) p =
        level_total ((alook flows p).getD (FPLevel.mk 0 0 0)) := by
  intro flows
  induction flows with
  | nil =>
    intro _
    simp [sumKey, level_total]
  | cons e rest ih =>
    intro hnd
    simp only [List.map_cons, List.nodup_cons] at hnd
    rw [List.map_cons, sumKey_cons]
    by_cases he : e.1 = p
    · have hrest : sumKey (rest.map (fun e => (e.1, level_total e.2))) p = 0 := by
        apply sumKey_eq_zero
        rw [List.map_map]
        intro hc
        apply hnd.1
        rw [he]
        simpa using hc
      rw [if_pos he, hrest, add_zero, alook_cons, if_pos he]
      rfl
    · rw [if_neg he, zero_add, alook_cons, if_neg he]
      exact ih hnd.2

theorem sumKey_entries (hist : List Footprint) (p : Int)
    (hwf : ∀ fp ∈ hist, (fp.order_flows.map Prod.fst).Nodup) :
    sumKey (entriesOf hist) p = bucket_volume hist p := by
  induction hist with
  | nil => simp [entriesOf, bucket_volume, agg_buy, agg_sell]
  | cons fp rest ih =>
    have hsplit : entriesOf (fp :: rest) =
        fp.order_flows.map (fun e => (e.1, level_total e.2)) ++ entriesOf rest := by
      simp [entriesOf]
    rw [hsplit, sumKey_append,
      sumKey_window p fp.order_flows (hwf fp (List.mem_cons_self _ _)),
      ih (fun f hf => hwf f (List.mem_cons_of_mem _ hf))]
    simp only [bucket_volume, agg_buy, agg_sell, List.map_cons, List.sum_cons,
      level_total]
    ring

theorem mem_entries_keys_iff (hist : List Footprint) (p : Int) :
    p ∈ (entriesOf hist).map Prod.fst ↔ p ∈ history_prices hist := by
  simp only [entriesOf, history_prices, List.mem_dedup, List.map_flatMap,
    List.mem_flatMap, List.map_map, List.mem_map]
  constructor
  · rintro ⟨fp, hfp, e, he, hpe⟩
    exact ⟨fp, hfp, e, he, by simpa using hpe⟩
  · rintro ⟨fp, hfp, e, he, hpe⟩
    exact ⟨fp, hfp, e, he, by simpa using hpe⟩

/-! ### The significant levels as a function of the price only -/

/-- The significant-level record determined by a price bucket. -/
def mkSig (hist : List Footprint) (p : Int) : SigLevel :=
  { price := p, volume := bucket_volume hist p,
    support := decide (agg_sell hist p < agg_buy hist p),
    buy_ratio :=
      if 0 < agg_buy hist p + agg_sell hist p then
        agg_buy hist p / (agg_buy hist p + agg_sell hist p)
      else 0 }

theorem mem_pv_value (hist : List Footprint) (e : Int × ℚ)
    (hwf : ∀ fp ∈ hist, (fp.order_flows.map Prod.fst).Nodup)
    (he : e ∈ price_volumes_of hist) : e.2 = bucket_volume hist e.1 := by
  have h1 : alook (price_volumes_of hist) e.1 = some e.2 :=
    alook_of_mem_nodup _ e.1 e.2 (pv_keys_nodup hist) (by exact he)
  rw [pv_alook] at h1
  by_cases hm : e.1 ∈ (entriesOf hist).map Prod.fst
  · rw [if_pos hm] at h1
    have := Option.some.inj h1
    rw [← this, sumKey_entries hist e.1 hwf]
  · rw [if_neg hm] at h1
    exact absurd h1 (by simp)

theorem significant_levels_as_map (hist : List Footprint)
    (hwf : ∀ fp ∈ hist, (fp.order_flows.map Prod.fst).Nodup) :
    significant_levels_of hist =
      (((price_volumes_of hist).filter
          (fun e => decide (total_volume_of hist * sr_volume_threshold ≤ e.2))).map
        Prod.fst).map (mkSig hist) := by
  unfold significant_levels_of
  rw [List.map_map]
  apply List.map_congr_left
  intro e he
  have hmem : e ∈ price_volumes_of hist := List.mem_of_mem_filter he
  have hval : e.2 = bucket_volume hist e.1 := mem_pv_value hist e hwf hmem
  simp only [Function.comp, mkSig]
  rw [hval]

/-- The price list selected by the source's filter. -/
def code_sig_prices (hist : List Footprint) : List Int :=
  ((price_volumes_of hist).filter
    (fun e => decide (total_volume_of hist * sr_volume_threshold ≤ e.2))).map
    Prod.fst

theorem code_sig_prices_mem (hist : List Footprint) (q : Int)
    (hwf : ∀ fp ∈ hist, (fp.order_flows.map Prod.fst).Nodup) :
    q ∈ code_sig_prices hist ↔
      q ∈ history_prices hist ∧
        total_volume_of hist * sr_volume_threshold ≤ bucket_volume hist q := by
  unfold code_sig_prices
  rw [List.mem_map]
  constructor
  · rintro ⟨e, he, rfl⟩
    have hmem : e ∈ price_volumes_of hist := List.mem_of_mem_filter he
    have hval : e.2 = bucket_volume hist e.1 := mem_pv_value hist e hwf hmem
    have hcond := List.of_mem_filter he
    simp only [decide_eq_true_eq] at hcond
    refine ⟨?_, hval ▸ hcond⟩
    rw [← mem_entries_keys_iff]
    have : (alook (price_volumes_of hist) e.1).isSome := by
      rw [alook_of_mem_nodup _ e.1 e.2 (pv_keys_nodup hist) hmem]
      rfl
    rw [pv_alook] at this
    by_cases hm : e.1 ∈ (entriesOf hist).map Prod.fst
    · exact hm
    · rw [if_neg hm] at this
      simp at this
  · rintro ⟨hm, hcond⟩
    have hm' : q ∈ (entriesOf hist).map Prod.fst :=
      (mem_entries_keys_iff hist q).mpr hm
    have hlook : alook (price_volumes_of hist) q = some (bucket_volume hist q) := by
      rw [pv_alook, if_pos hm', sumKey_entries hist q hwf]
    have hmem : (q, bucket_volume hist q) ∈ price_volumes_of hist :=
      alook_some_mem _ q _ hlook
    exact ⟨(q, bucket_volume hist q),
      List.mem_filter.mpr ⟨hmem, by simpa using hcond⟩, rfl⟩

theorem code_sig_prices_nodup (hist : List Footprint) :
    (code_sig_prices hist).Nodup := by
  unfold code_sig_prices
  have hsub : (((price_volumes_of hist).filter
      (fun e => decide (total_volume_of hist * sr_volume_threshold ≤ e.2))).map
        Prod.fst).Sublist ((price_volumes_of hist).map Prod.fst) :=
    (List.filter_sublist _).map Prod.fst
  exact hsub.nodup (pv_keys_nodup hist)

theorem spec_filter_nodup (hist : List Footprint) :
    ((history_prices hist).filter
      (fun p => decide (total_volume_of hist * sr_volume_threshold ≤
        bucket_volume hist p))).Nodup :=
  (List.nodup_dedup _).filter _

theorem sorted_code_prices_eq (hist : List Footprint)
    (hwf : ∀ fp ∈ hist, (fp.order_flows.map Prod.fst).Nodup) :
    List.insertionSort (· ≤ ·) (code_sig_prices hist) =
      spec_significant_prices hist := by
  unfold spec_significant_prices
  have hperm2 : List.Perm
      (List.insertionSort (· ≤ ·) (code_sig_prices hist))
      (List.insertionSort (· ≤ ·)
        ((history_prices hist).filter
          (fun p => decide (total_volume_of hist * sr_volume_threshold ≤
            bucket_volume hist p)))) := by
    refine ((List.perm_insertionSort _ _).trans ?_).trans
      (List.perm_insertionSort _ _).symm
    apply (List.perm_ext_iff_of_nodup (code_sig_prices_nodup hist)
      (spec_filter_nodup hist)).mpr
    intro q
    rw [code_sig_prices_mem hist q hwf, List.mem_filter]
    simp [List.mem_dedup]
  exact List.eq_of_perm_of_sorted hperm2
    (List.sorted_insertionSort _ _) (List.sorted_insertionSort _ _)

/-! ### Sorting commutes with building the level records -/

theorem orderedInsert_map_mkSig (hist : List Footprint) (x : Int) :
    ∀ l : List Int,
      List.orderedInsert (fun a b => a.price ≤ b.price) (mkSig hist x)
          (l.map (mkSig hist)) =
        (List.orderedInsert (· ≤ ·) x l).map (mkSig hist) := by
  intro l
  induction l with
  | nil => rfl
  | cons y ys ih =>
    by_cases h : x ≤ y
    · have hp : (mkSig hist x).price ≤ (mkSig hist y).price := h
      have hl : List.orderedInsert (fun a b => a.price ≤ b.price) (mkSig hist x)
          ((y :: ys).map (mkSig hist)) =
            mkSig hist x :: (y :: ys).map (mkSig hist) := by
        show (if (mkSig hist x).price ≤ (mkSig hist y).price then
            mkSig hist x :: (y :: ys).map (mkSig hist)
          else mkSig hist y :: List.orderedInsert (fun a b => a.price ≤ b.price)
            (mkSig hist x) (ys.map (mkSig hist))) =
            mkSig hist x :: (y :: ys).map (mkSig hist)
        rw [if_pos hp]
      have hr : List.orderedInsert (· ≤ ·) x (y :: ys) = x :: y :: ys := by
        show (if x ≤ y then x :: y :: ys
          else y :: List.orderedInsert (· ≤ ·) x ys) = x :: y :: ys
        rw [if_pos h]
      rw [hl, hr]
      rfl
    · have hp : ¬ (mkSig hist x).price ≤ (mkSig hist y).price := h
      have hl : List.orderedInsert (fun a b => a.price ≤ b.price) (mkSig hist x)
          ((y :: ys).map (mkSig hist)) =
            mkSig hist y :: List.orderedInsert (fun a b => a.price ≤ b.price)
              (mkSig hist x) (ys.map (mkSig hist)) := by
        show (if (mkSig hist x).price ≤ (mkSig hist y).price then
            mkSig hist x :: (y :: ys).map (mkSig hist)
          else mkSig hist y :: List.orderedInsert (fun a b => a.price ≤ b.price)
            (mkSig hist x) (ys.map (mkSig hist))) = _
        rw [if_neg hp]
      have hr : List.orderedInsert (· ≤ ·) x (y :: ys) =
          y :: List.orderedInsert (· ≤ ·) x ys := by
        show (if x ≤ y then x :: y :: ys
          else y :: List.orderedInsert (· ≤ ·) x ys) = _
        rw [if_neg h]
      rw [hl, hr, List.map_cons, ih]

theorem insertionSort_map_mkSig (hist : List Footprint) :
    ∀ l : List Int,
      List.insertionSort (fun a b => a.price ≤ b.price) (l.map (mkSig hist)) =
        (List.insertionSort (· ≤ ·) l).map (mkSig hist) := by
  intro l
  induction l with
  | nil => rfl
  | cons x xs ih =>
    rw [List.map_cons, List.insertionSort, List.insertionSort, ih,
      orderedInsert_map_mkSig]

/-! ### The greedy merge agrees with its spec formulation -/

theorem ratio_mul_vol (hist : List Footprint) (q : Int)
    (h : 0 < bucket_volume hist q) :
    (mkSig hist q).buy_ratio * (mkSig hist q).volume = agg_buy hist q := by
  show (if 0 < agg_buy hist q + agg_sell hist q then
      agg_buy hist q / (agg_buy hist q + agg_sell hist q) else 0) *
    bucket_volume hist q = agg_buy hist q
  rw [if_pos (show 0 < agg_buy hist q + agg_sell hist q from h)]
  show agg_buy hist q / (agg_buy hist q + agg_sell hist q) *
    (agg_buy hist q + agg_sell hist q) = agg_buy hist q
  exact div_mul_cancel₀ _ (ne_of_gt h)

theorem merge_zones_eq_spec (hist : List Footprint) (total : ℚ) :
    ∀ (n : Nat) (ps : List Int), ps.length ≤ n →
      (∀ q ∈ ps, 0 < bucket_volume hist q) →
      merge_zones total (ps.map (mkSig hist)) = spec_merge hist total ps := by
  intro n
  induction n with
  | zero =>
    intro ps hlen _
    have hnil : ps = [] := List.length_eq_zero.mp (Nat.le_zero.mp hlen)
    subst hnil
    simp [merge_zones, spec_merge]
  | succ n ih =>
    intro ps hlen hpos
    cases ps with
    | nil => simp [merge_zones, spec_merge]
    | cons p ps' =>
      have hp0 : 0 < bucket_volume hist p := hpos p (List.mem_cons_self _ _)
      have hlen1 : ps'.length ≤ n := by
        simp only [List.length_cons] at hlen
        omega
      have hlen' :
          (ps'.dropWhile (fun q => decide (q - p ≤ sr_price_range))).length ≤ n :=
        le_trans (List.Sublist.length_le (List.dropWhile_sublist _)) hlen1
      have hpos' : ∀ q ∈ ps'.dropWhile (fun q => decide (q - p ≤ sr_price_range)),
          0 < bucket_volume hist q :=
        fun q hq => hpos q
          (List.mem_cons_of_mem _ ((List.dropWhile_sublist _).subset hq))
      have hposT : ∀ q ∈ ps'.takeWhile (fun q => decide (q - p ≤ sr_price_range)),
          0 < bucket_volume hist q :=
        fun q hq => hpos q
          (List.mem_cons_of_mem _ ((List.takeWhile_sublist _).subset hq))
      have htail := ih _ hlen' hpos'
      have hsum_buy :
          ((ps'.takeWhile (fun q => decide (q - p ≤ sr_price_range))).map
            (fun q => (mkSig hist q).buy_ratio * (mkSig hist q).volume)).sum =
          ((ps'.takeWhile (fun q => decide (q - p ≤ sr_price_range))).map
            (fun q => agg_buy hist q)).sum :=
        congrArg List.sum
          (List.map_congr_left (fun q hq => ratio_mul_vol hist q (hposT q hq)))
      rw [List.map_cons]
      simp only [merge_zones, spec_merge]
      have hT : (ps'.map (mkSig hist)).takeWhile
          (fun l => decide (l.price - (mkSig hist p).price ≤ sr_price_range)) =
          (ps'.takeWhile (fun q => decide (q - p ≤ sr_price_range))).map
            (mkSig hist) := by
        rw [List.takeWhile_map]
        rfl
      have hD : (ps'.map (mkSig hist)).dropWhile
          (fun l => decide (l.price - (mkSig hist p).price ≤ sr_price_range)) =
          (ps'.dropWhile (fun q => decide (q - p ≤ sr_price_range))).map
            (mkSig hist) := by
        rw [List.dropWhile_map]
        rfl
      rw [hT, hD, htail]
      refine congrArg₂ List.cons ?_ rfl
      have hnum : (mkSig hist p).buy_ratio * (mkSig hist p).volume +
          (((ps'.takeWhile (fun q => decide (q - p ≤ sr_price_range))).map
            (mkSig hist)).map (fun l => l.buy_ratio * l.volume)).sum =
          ((p :: ps'.takeWhile (fun q => decide (q - p ≤ sr_price_range))).map
            (fun q => agg_buy hist q)).sum := by
        rw [List.map_map, List.map_cons, List.sum_cons]
        exact congrArg₂ (· + ·) (ratio_mul_vol hist p hp0) hsum_buy
      rw [hnum]
      have hvol : (List.map (fun l => l.volume) (List.map (mkSig hist)
          (ps'.takeWhile (fun q => decide (q - p ≤ sr_price_range))))).sum =
          (List.map (fun q => bucket_volume hist q)
            (ps'.takeWhile (fun q => decide (q - p ≤ sr_price_range)))).sum := by
        rw [List.map_map]
        rfl
      rw [hvol, List.map_cons, List.sum_cons]
      rfl

/-- C7: `analyze_support_resistance` computes exactly the spec's
description — it keeps exactly the price buckets whose aggregated volume
over the whole history reaches `volumeShare ×` the total history volume,
merges them greedily left-to-right in ascending price order with each
bucket joining the zone of the anchor bucket within `mergeRange`, and
classifies every zone as support exactly when its volume-weighted buy
ratio exceeds one half, with strength merged volume over total volume.
The hypotheses ask that each history window's price keys are distinct (a
Python dict guarantees this) and that some volume was traded (otherwise
the source divides by zero). -/
theorem support_resistance_refines (hist : List Footprint)
    (hwf : ∀ fp ∈ hist, (fp.order_flows.map Prod.fst).Nodup)
    (hpos : 0 < total_volume_of hist) :
    analyze_support_resistance hist = supportResistanceSpec hist := by
  cases hist with
  | nil => simp [total_volume_of] at hpos
  | cons fp rest =>
    show merge_zones (total_volume_of (fp :: rest))
        (List.insertionSort (fun a b => a.price ≤ b.price)
          (significant_levels_of (fp :: rest))) = _
    rw [significant_levels_as_map _ hwf]
    rw [show (((price_volumes_of (fp :: rest)).filter
        (fun e => decide (total_volume_of (fp :: rest) * sr_volume_threshold ≤ e.2))).map
          Prod.fst) = code_sig_prices (fp :: rest) from rfl]
    rw [insertionSort_map_mkSig, sorted_code_prices_eq _ hwf]
    refine merge_zones_eq_spec (fp :: rest) (total_volume_of (fp :: rest))
      (spec_significant_prices (fp :: rest)).length
      (spec_significant_prices (fp :: rest)) (le_refl _) ?_
    intro q hq
    have hq' : q ∈ (history_prices (fp :: rest)).filter
        (fun pr => decide (total_volume_of (fp :: rest) * sr_volume_threshold ≤
          bucket_volume (fp :: rest) pr)) :=
      (List.perm_insertionSort _ _).subset hq
    have hcond := List.of_mem_filter hq'
    simp only [decide_eq_true_eq] at hcond
    have hthresh : 0 < total_volume_of (fp :: rest) * sr_volume_threshold := by
      apply mul_pos hpos
      norm_num [sr_volume_threshold]
    exact lt_of_lt_of_le hthresh hcond

/-- Witness for `support_resistance_refines`: a one-window history with
two buckets, at prices 100 and 103, both above the volume-share threshold
and close enough to merge. -/
theorem support_resistance_refines_witness :
    analyze_support_resistance
        [{ new_minute_footprint with
           order_flows := [(100, FPLevel.mk 6 4 1), (103, FPLevel.mk 1 9 1)] }] =
      supportResistanceSpec
        [{ new_minute_footprint with
           order_flows := [(100, FPLevel.mk 6 4 1), (103, FPLevel.mk 1 9 1)] }] := by
  apply support_resistance_refines
  · decide
  · norm_num [total_volume_of, level_total]

end BinanceFutures
